import Mathlib

/-!
# Shallow embedding of the Likhtman multi-tau correlator engine

This file embeds `src/multiTauCorrelator/correlator_likh.cc` (class
`Correlator_Likh`) in Lean 4 and proves properties of the embedding.

Modelling conventions:
* C++ `double` values are modelled by `ℚ` (the claims speak about exact
  arithmetic; floating-point rounding is out of scope).  Note that in `ℚ`
  a division by zero yields `0` where IEEE doubles yield `inf`/`nan`; this
  only matters on caller-error paths the spec rules out (evaluating with
  normalization before any insertion).
* The per-level arrays (`shift`, `correlation`, `ncorrelation`,
  `accumulator`, `naccumulator`, `insertindex`) are lists indexed by level;
  rows are lists indexed by lag/slot.  Reads use `List.getD`, writes use
  `List.set`.  An out-of-range `List.set` is a no-op; in the C++ source an
  out-of-range index is an out-of-bounds access (undefined behavior), which
  can only be reached by calling `add` with a level argument strictly
  greater than `numcorrelators` (see the theorem for claim C3).
* One ghost field `nwritten` is added: the number of values ever inserted
  at each level.  It is write-only inside `add` (never read by the modelled
  code paths), so it does not influence the embedded behaviour; it is used
  to *state* claims about "slots actually written" (C4, C6).
* `add` in the source recurses on `level + 1`; the embedding uses explicit
  fuel (`addFuel`), and `add` supplies `numcorrelators + 1` units, which is
  shown (claim C9) to be enough for every call with `k ≤ numcorrelators`.
-/

/-- The sentinel stored in never-written buffer slots: `-2E10` in
`Correlator_Likh::initialize` (line 69 of the source). -/
def sentinel : ℚ := -20000000000

/-- The validity threshold of the correlation loops: a slot participates
iff its value is `> -1e10` (lines 121 and 132 of the source). -/
def threshold : ℚ := -10000000000

/-- State of a `Correlator_Likh` object.  Field names follow the C++ data
members.  `nwritten` is a ghost field (see the file header). -/
structure Correlator_Likh where
  numcorrelators : Nat
  p : Nat
  m : Nat
  d_min : Nat
  shift : List (List ℚ)
  correlation : List (List ℚ)
  ncorrelation : List (List Nat)
  accumulator : List ℚ
  naccumulator : List Nat
  insertindex : List Nat
  nwritten : List Nat
  kmax : Nat
  accval : ℚ
  t : List ℚ
  f : List ℚ
  npcorr : Nat
deriving Repr, DecidableEq

namespace Correlator_Likh

/-- The state established by `setsize(numcorrin, p_in, m_in)` followed by
`initialize()` (source lines 30-86): all buffers filled with the sentinel,
all sums, counts and indices zero, `d_min = p / m` (integer division),
output arrays of capacity `numcorrelators * p` zeroed. -/
def initState (numcorrin p_in m_in : Nat) : Correlator_Likh where
  numcorrelators := numcorrin
  p := p_in
  m := m_in
  d_min := p_in / m_in
  shift := List.replicate numcorrin (List.replicate p_in sentinel)
  correlation := List.replicate numcorrin (List.replicate p_in 0)
  ncorrelation := List.replicate numcorrin (List.replicate p_in 0)
  accumulator := List.replicate numcorrin 0
  naccumulator := List.replicate numcorrin 0
  insertindex := List.replicate numcorrin 0
  nwritten := List.replicate numcorrin 0
  kmax := 0
  accval := 0
  t := List.replicate (numcorrin * p_in) 0
  f := List.replicate (numcorrin * p_in) 0
  npcorr := 0

/-- One iteration body of the correlation loops (source lines 121-124 and
132-135): if the historical slot `ind2` passes the validity test, add the
product of the current sample and the historical sample to
`correlation[j]` and bump `ncorrelation[j]`.  The validity test is passed
in as a function of the slot index so that the source's sentinel test and
the claims' "actually written" test can share the loop skeleton. -/
def corrStep (shiftRow : List ℚ) (test : Nat → Bool) (ind1 : Nat)
    (st : List ℚ × List Nat) (j : Nat) (ind2 : Int) : List ℚ × List Nat :=
  if test ind2.toNat then
    (st.1.set j (st.1.getD j 0 +
        shiftRow.getD ind1 sentinel * shiftRow.getD ind2.toNat sentinel),
     st.2.set j (st.2.getD j 0 + 1))
  else st

/-- One full iteration of the level-0 correlation loop (source lines
120-127): test/update lag `j`, then decrement `ind2` and wrap it below
zero. -/
def loopStep0 (p : Nat) (shiftRow : List ℚ) (test : Nat → Bool) (ind1 : Nat)
    (st : Int × List ℚ × List Nat) (j : Nat) : Int × List ℚ × List Nat :=
  let st2 := corrStep shiftRow test ind1 st.2 j st.1
  let i2 := st.1 - 1
  (if i2 < 0 then i2 + (p : Int) else i2, st2)

/-- The level-0 correlation loop (source lines 119-127): `ind2` starts at
`ind1` and `j` runs over `[0, p)`. -/
def corrLoop0 (p : Nat) (shiftRow : List ℚ) (test : Nat → Bool)
    (ind1 : Nat) (corrRow : List ℚ) (ncorrRow : List Nat) :
    List ℚ × List Nat :=
  ((List.range p).foldl (loopStep0 p shiftRow test ind1)
    ((ind1 : Int), corrRow, ncorrRow)).2

/-- One full iteration of the correlation loop of levels above 0 (source
lines 131-136): wrap `ind2` below zero at the head, then test/update lag
`j`, then decrement `ind2`. -/
def loopStepK (p : Nat) (shiftRow : List ℚ) (test : Nat → Bool) (ind1 : Nat)
    (st : Int × List ℚ × List Nat) (j : Nat) : Int × List ℚ × List Nat :=
  let i2 := if st.1 < 0 then st.1 + (p : Int) else st.1
  let st2 := corrStep shiftRow test ind1 st.2 j i2
  (i2 - 1, st2)

/-- The correlation loop of levels above 0 (source lines 129-137): `ind2`
starts at `ind1 - d_min` (as a signed value) and `j` runs over
`[d_min, p)`. -/
def corrLoopK (p d_min : Nat) (shiftRow : List ℚ) (test : Nat → Bool)
    (ind1 : Nat) (corrRow : List ℚ) (ncorrRow : List Nat) :
    List ℚ × List Nat :=
  ((List.range' d_min (p - d_min)).foldl (loopStepK p shiftRow test ind1)
    (((ind1 : Int) - (d_min : Int)), corrRow, ncorrRow)).2

/-- The source's validity test (lines 121/132): the value stored at the
slot is `> -1e10`. -/
def sentinelTC (shiftRow : List ℚ) (_nw : Nat) (s : Nat) : Bool :=
  decide (threshold < shiftRow.getD s sentinel)

/-- The claims' validity test: the slot has actually been written.  After
`nw` insertions at a level the written slots are exactly those with index
`< nw` (insertion proceeds `0, 1, …, p-1, 0, 1, …`). -/
def writtenTC (_shiftRow : List ℚ) (nw : Nat) (s : Nat) : Bool :=
  decide (s < nw)

/-- The steps of `add` before the cascade (source lines 99-109): the
`kmax` update, the buffer write at `insertindex[k]` (plus the ghost
written counter), the `accval` update at level 0, and the accumulator
update.  `add` reads `naccumulator[k]` right after the `++`; the
incremented value is `naccumulator[k] + 1` of the incoming state. -/
def preCascade (c : Correlator_Likh) (w : ℚ) (k : Nat) : Correlator_Likh :=
  let c1 := { c with kmax := if c.kmax < k then k else c.kmax }
  let c2 := { c1 with
    shift := c1.shift.set k ((c1.shift.getD k []).set (c1.insertindex.getD k 0) w),
    nwritten := c1.nwritten.set k (c1.nwritten.getD k 0 + 1) }
  let c3 := if k = 0 then { c2 with accval := c2.accval + w } else c2
  { c3 with
    accumulator := c3.accumulator.set k (c3.accumulator.getD k 0 + w),
    naccumulator := c3.naccumulator.set k (c3.naccumulator.getD k 0 + 1) }

/-- The resets after a cascade (source lines 112-113):
`accumulator[k] = 0; naccumulator[k] = 0`. -/
def postCascade (k : Nat) (c : Correlator_Likh) : Correlator_Likh :=
  { c with
    accumulator := c.accumulator.set k 0,
    naccumulator := c.naccumulator.set k 0 }

/-- The updated `(correlation, ncorrelation)` rows of level `k` computed
by the correlation loops of `add` (source lines 116-138). -/
def corrPair (tc : List ℚ → Nat → Nat → Bool) (k : Nat)
    (c : Correlator_Likh) : List ℚ × List Nat :=
  let row := c.shift.getD k []
  if k = 0 then
    corrLoop0 c.p row (tc row (c.nwritten.getD k 0)) (c.insertindex.getD k 0)
      (c.correlation.getD k []) (c.ncorrelation.getD k [])
  else
    corrLoopK c.p c.d_min row (tc row (c.nwritten.getD k 0))
      (c.insertindex.getD k 0)
      (c.correlation.getD k []) (c.ncorrelation.getD k [])

/-- The correlation phase of `add` (source lines 116-141): run the
level-appropriate correlation loop on row `k`, store the updated rows, and
advance `insertindex[k]` with wraparound. -/
def corrPhase (tc : List ℚ → Nat → Nat → Bool) (k : Nat)
    (c : Correlator_Likh) : Correlator_Likh :=
  let ind1 := c.insertindex.getD k 0
  let pr := corrPair tc k c
  { c with
    correlation := c.correlation.set k pr.1,
    ncorrelation := c.ncorrelation.set k pr.2,
    insertindex := c.insertindex.set k
      (if ind1 + 1 = c.p then 0 else ind1 + 1) }

/-- `Correlator_Likh::add(w, k)` (source lines 88-142), with explicit fuel
for the recursion into level `k+1` and the validity test abstracted as
`tc` (which receives the level's shift row and its ghost written count).
Step order follows the source: depth guard, then `preCascade` (lines
99-109), then — when `naccumulator[k]` has reached `m` — the recursive
`add(accumulator[k]/m, k+1)` followed by `postCascade` (lines 110-114),
and finally `corrPhase` (lines 116-141).  Note the cascade leaves row `k`
alone, so `corrPhase` reading `insertindex[k]` afterwards (source line
117) sees the same value that the buffer write used (line 102). -/
def addFuel (tc : List ℚ → Nat → Nat → Bool) :
    Nat → Correlator_Likh → ℚ → Nat → Correlator_Likh
  | 0, c, _, _ => c
  | fuel + 1, c, w, k =>
    if k = c.numcorrelators then c
    else
      let c4 := preCascade c w k
      let c5 :=
        if c.naccumulator.getD k 0 + 1 = c.m then
          postCascade k
            (addFuel tc fuel c4 ((c.accumulator.getD k 0 + w) / (c.m : ℚ)) (k + 1))
        else c4
      corrPhase tc k c5

/-- `Correlator_Likh::add` as in the source (sentinel validity test). -/
def add (c : Correlator_Likh) (w : ℚ) (k : Nat) : Correlator_Likh :=
  addFuel sentinelTC (c.numcorrelators + 1) c w k

/-- The variant of `add` whose validity test is the claims' "slot actually
written" condition (via the ghost `nwritten`) instead of the source's
sentinel-threshold comparison.  Used to state claim C6. -/
def addTrue (c : Correlator_Likh) (w : ℚ) (k : Nat) : Correlator_Likh :=
  addFuel writtenTC (c.numcorrelators + 1) c w k

/-- Feed a list of samples at level 0, in order (the external API). -/
def feed (c : Correlator_Likh) (ws : List ℚ) : Correlator_Likh :=
  ws.foldl (fun s w => s.add w 0) c

/-- Feed a list of samples at level `k`, in order. -/
def feedAt (k : Nat) (c : Correlator_Likh) (ws : List ℚ) : Correlator_Likh :=
  ws.foldl (fun s w => s.add w k) c

/-- Feed with the written-slot validity test, at level 0. -/
def feedTrue (c : Correlator_Likh) (ws : List ℚ) : Correlator_Likh :=
  ws.foldl (fun s w => s.addTrue w 0) c

/-- The mean-square correction of `evaluate` (source line 157):
`(accval / ncorrelation[0][0])²` when normalizing, else 0. -/
def evalAux (c : Correlator_Likh) (norm : Bool) : ℚ :=
  if norm then
    (c.accval / (((c.ncorrelation.getD 0 []).getD 0 0 : Nat) : ℚ)) *
      (c.accval / (((c.ncorrelation.getD 0 []).getD 0 0 : Nat) : ℚ))
  else 0

/-- The full emit loop of `evaluate` (source lines 154-177), producing the
final `(im, t, f)` triple from the starting state `(0, t, f)`: walk level
0 over all lags `i < p`, then levels `1 ≤ k < kmax` over lags
`d_min ≤ i < p`, emitting `(lag, correlation/count - aux)` at the running
cursor `im` whenever the lag's count is positive.  (`aux` is written as
`evalAux` at each use; the source computes it once up front — the value is
identical since nothing here mutates the fields `evalAux` reads.) -/
def evalLoop (c : Correlator_Likh) (norm : Bool) : Nat × List ℚ × List ℚ :=
  (List.range' 1 (c.kmax - 1)).foldl
    (fun st k =>
      (List.range' c.d_min (c.p - c.d_min)).foldl
        (fun st i =>
          if 0 < (c.ncorrelation.getD k []).getD i 0 then
            (st.1 + 1,
             st.2.1.set st.1 ((i : ℚ) * ((c.m : ℚ)) ^ k),
             st.2.2.set st.1
               ((c.correlation.getD k []).getD i 0 /
                  (((c.ncorrelation.getD k []).getD i 0 : Nat) : ℚ) -
                    c.evalAux norm))
          else st)
        st)
    ((List.range c.p).foldl
      (fun st i =>
        if 0 < (c.ncorrelation.getD 0 []).getD i 0 then
          (st.1 + 1,
           st.2.1.set st.1 (i : ℚ),
           st.2.2.set st.1
             ((c.correlation.getD 0 []).getD i 0 /
                (((c.ncorrelation.getD 0 []).getD i 0 : Nat) : ℚ) -
                  c.evalAux norm))
        else st)
      ((0 : Nat), c.t, c.f))

/-- `Correlator_Likh::evaluate(norm)` (source lines 144-180): run the emit
loop and store the results in `t`, `f` and `npcorr`. -/
def evaluate (c : Correlator_Likh) (norm : Bool) : Correlator_Likh :=
  { c with
    t := (c.evalLoop norm).2.1,
    f := (c.evalLoop norm).2.2,
    npcorr := (c.evalLoop norm).1 }

/-- Declarative description of the output of `evaluate`, following the
spec's words (§4.4): for level 0, one `(lag, value)` pair per lag `i ∈
[0, p)` with `ncorrelation[0][i] > 0`, lag `i`, value
`correlation[0][i]/ncorrelation[0][i] - aux`; then for each level
`k ∈ [1, kmax)` one pair per lag `i ∈ [d_min, p)` with a positive count,
lag `i·m^k`, value `correlation[k][i]/ncorrelation[k][i] - aux`. -/
def evalPairs (c : Correlator_Likh) (norm : Bool) : List (ℚ × ℚ) :=
  ((List.range c.p).filterMap fun i =>
    if 0 < (c.ncorrelation.getD 0 []).getD i 0 then
      some ((i : ℚ),
        (c.correlation.getD 0 []).getD i 0 /
          (((c.ncorrelation.getD 0 []).getD i 0 : Nat) : ℚ) - c.evalAux norm)
    else none)
  ++ (List.range' 1 (c.kmax - 1)).flatMap (fun k =>
    (List.range' c.d_min (c.p - c.d_min)).filterMap fun i =>
      if 0 < (c.ncorrelation.getD k []).getD i 0 then
        some ((i : ℚ) * ((c.m : ℚ)) ^ k,
          (c.correlation.getD k []).getD i 0 /
            (((c.ncorrelation.getD k []).getD i 0 : Nat) : ℚ) - c.evalAux norm)
      else none)

/-! ## Basic characterization of the phases of `add` -/

section PhaseLemmas

variable (tc : List ℚ → Nat → Nat → Bool) (c : Correlator_Likh) (w : ℚ) (k : Nat)

@[simp] theorem preCascade_numcorrelators :
    (preCascade c w k).numcorrelators = c.numcorrelators := by
  simp only [preCascade]; split <;> rfl

@[simp] theorem preCascade_p : (preCascade c w k).p = c.p := by
  simp only [preCascade]; split <;> rfl

@[simp] theorem preCascade_m : (preCascade c w k).m = c.m := by
  simp only [preCascade]; split <;> rfl

@[simp] theorem preCascade_d_min : (preCascade c w k).d_min = c.d_min := by
  simp only [preCascade]; split <;> rfl

@[simp] theorem preCascade_t : (preCascade c w k).t = c.t := by
  simp only [preCascade]; split <;> rfl

@[simp] theorem preCascade_f : (preCascade c w k).f = c.f := by
  simp only [preCascade]; split <;> rfl

@[simp] theorem preCascade_npcorr : (preCascade c w k).npcorr = c.npcorr := by
  simp only [preCascade]; split <;> rfl

@[simp] theorem preCascade_correlation :
    (preCascade c w k).correlation = c.correlation := by
  simp only [preCascade]; split <;> rfl

@[simp] theorem preCascade_ncorrelation :
    (preCascade c w k).ncorrelation = c.ncorrelation := by
  simp only [preCascade]; split <;> rfl

@[simp] theorem preCascade_insertindex :
    (preCascade c w k).insertindex = c.insertindex := by
  simp only [preCascade]; split <;> rfl

@[simp] theorem preCascade_kmax :
    (preCascade c w k).kmax = if c.kmax < k then k else c.kmax := by
  simp only [preCascade]; split <;> rfl

@[simp] theorem preCascade_shift :
    (preCascade c w k).shift =
      c.shift.set k ((c.shift.getD k []).set (c.insertindex.getD k 0) w) := by
  simp only [preCascade]; split <;> rfl

@[simp] theorem preCascade_nwritten :
    (preCascade c w k).nwritten =
      c.nwritten.set k (c.nwritten.getD k 0 + 1) := by
  simp only [preCascade]; split <;> rfl

@[simp] theorem preCascade_accval :
    (preCascade c w k).accval = if k = 0 then c.accval + w else c.accval := by
  simp only [preCascade]; split <;> rfl

@[simp] theorem preCascade_accumulator :
    (preCascade c w k).accumulator =
      c.accumulator.set k (c.accumulator.getD k 0 + w) := by
  simp only [preCascade]; split <;> rfl

@[simp] theorem preCascade_naccumulator :
    (preCascade c w k).naccumulator =
      c.naccumulator.set k (c.naccumulator.getD k 0 + 1) := by
  simp only [preCascade]; split <;> rfl

@[simp] theorem postCascade_numcorrelators :
    (postCascade k c).numcorrelators = c.numcorrelators := rfl

@[simp] theorem postCascade_p : (postCascade k c).p = c.p := rfl

@[simp] theorem postCascade_m : (postCascade k c).m = c.m := rfl

@[simp] theorem postCascade_d_min : (postCascade k c).d_min = c.d_min := rfl

@[simp] theorem postCascade_t : (postCascade k c).t = c.t := rfl

@[simp] theorem postCascade_f : (postCascade k c).f = c.f := rfl

@[simp] theorem postCascade_npcorr : (postCascade k c).npcorr = c.npcorr := rfl

@[simp] theorem postCascade_correlation :
    (postCascade k c).correlation = c.correlation := rfl

@[simp] theorem postCascade_ncorrelation :
    (postCascade k c).ncorrelation = c.ncorrelation := rfl

@[simp] theorem postCascade_insertindex :
    (postCascade k c).insertindex = c.insertindex := rfl

@[simp] theorem postCascade_kmax : (postCascade k c).kmax = c.kmax := rfl

@[simp] theorem postCascade_shift : (postCascade k c).shift = c.shift := rfl

@[simp] theorem postCascade_nwritten :
    (postCascade k c).nwritten = c.nwritten := rfl

@[simp] theorem postCascade_accval : (postCascade k c).accval = c.accval := rfl

@[simp] theorem postCascade_accumulator :
    (postCascade k c).accumulator = c.accumulator.set k 0 := rfl

@[simp] theorem postCascade_naccumulator :
    (postCascade k c).naccumulator = c.naccumulator.set k 0 := rfl

@[simp] theorem corrPhase_numcorrelators :
    (corrPhase tc k c).numcorrelators = c.numcorrelators := rfl

@[simp] theorem corrPhase_p : (corrPhase tc k c).p = c.p := rfl

@[simp] theorem corrPhase_m : (corrPhase tc k c).m = c.m := rfl

@[simp] theorem corrPhase_d_min : (corrPhase tc k c).d_min = c.d_min := rfl

@[simp] theorem corrPhase_t : (corrPhase tc k c).t = c.t := rfl

@[simp] theorem corrPhase_f : (corrPhase tc k c).f = c.f := rfl

@[simp] theorem corrPhase_npcorr : (corrPhase tc k c).npcorr = c.npcorr := rfl

@[simp] theorem corrPhase_kmax : (corrPhase tc k c).kmax = c.kmax := rfl

@[simp] theorem corrPhase_shift : (corrPhase tc k c).shift = c.shift := rfl

@[simp] theorem corrPhase_nwritten :
    (corrPhase tc k c).nwritten = c.nwritten := rfl

@[simp] theorem corrPhase_accval : (corrPhase tc k c).accval = c.accval := rfl

@[simp] theorem corrPhase_accumulator :
    (corrPhase tc k c).accumulator = c.accumulator := rfl

@[simp] theorem corrPhase_naccumulator :
    (corrPhase tc k c).naccumulator = c.naccumulator := rfl

@[simp] theorem corrPhase_correlation :
    (corrPhase tc k c).correlation =
      c.correlation.set k (corrPair tc k c).1 := rfl

@[simp] theorem corrPhase_ncorrelation :
    (corrPhase tc k c).ncorrelation =
      c.ncorrelation.set k (corrPair tc k c).2 := rfl

@[simp] theorem corrPhase_insertindex :
    (corrPhase tc k c).insertindex =
      c.insertindex.set k
        (if c.insertindex.getD k 0 + 1 = c.p then 0
         else c.insertindex.getD k 0 + 1) := rfl

theorem addFuel_zero : addFuel tc 0 c w k = c := rfl

theorem addFuel_succ (fuel : Nat) :
    addFuel tc (fuel + 1) c w k =
      if k = c.numcorrelators then c
      else
        corrPhase tc k
          (if c.naccumulator.getD k 0 + 1 = c.m then
            postCascade k
              (addFuel tc fuel (preCascade c w k)
                ((c.accumulator.getD k 0 + w) / (c.m : ℚ)) (k + 1))
          else preCascade c w k) := rfl

end PhaseLemmas

/-! ## List helper lemmas -/

theorem getD_set_self {α : Type _} (l : List α) (i : Nat) (v d : α)
    (h : i < l.length) : (l.set i v).getD i d = v := by
  simp [List.getD_eq_getElem?_getD, List.getElem?_set_self h]

theorem getD_set_ne {α : Type _} (l : List α) {i j : Nat} (v d : α)
    (h : i ≠ j) : (l.set i v).getD j d = l.getD j d := by
  simp [List.getD_eq_getElem?_getD, List.getElem?_set_ne h]

theorem getD_replicate {α : Type _} (n i : Nat) (a d : α) :
    (List.replicate n a).getD i d = if i < n then a else d := by
  rcases Nat.lt_or_ge i n with h | h
  · simp [List.getD_eq_getElem?_getD, List.getElem?_replicate, h]
  · simp [List.getD_eq_getElem?_getD, List.getElem?_replicate,
      Nat.not_lt.mpr h, Nat.lt_irrefl, if_neg (Nat.not_lt.mpr h)]

/-! ## Lengths are preserved -/

theorem corrStep_lengths (row : List ℚ) (test : Nat → Bool) (ind1 : Nat)
    (st : List ℚ × List Nat) (j : Nat) (i2 : Int) :
    (corrStep row test ind1 st j i2).1.length = st.1.length ∧
      (corrStep row test ind1 st j i2).2.length = st.2.length := by
  simp only [corrStep]; split <;> simp

theorem foldl_loopStep0_lengths (p : Nat) (row : List ℚ) (test : Nat → Bool)
    (ind1 : Nat) (js : List Nat) :
    ∀ st : Int × List ℚ × List Nat,
      ((js.foldl (loopStep0 p row test ind1) st).2.1.length = st.2.1.length ∧
       (js.foldl (loopStep0 p row test ind1) st).2.2.length = st.2.2.length) := by
  induction js with
  | nil => intro st; exact ⟨rfl, rfl⟩
  | cons j js ih =>
    intro st
    rw [List.foldl_cons]
    refine ⟨(ih _).1.trans ?_, (ih _).2.trans ?_⟩
    · exact (corrStep_lengths row test ind1 st.2 j st.1).1
    · exact (corrStep_lengths row test ind1 st.2 j st.1).2

theorem foldl_loopStepK_lengths (p : Nat) (row : List ℚ) (test : Nat → Bool)
    (ind1 : Nat) (js : List Nat) :
    ∀ st : Int × List ℚ × List Nat,
      ((js.foldl (loopStepK p row test ind1) st).2.1.length = st.2.1.length ∧
       (js.foldl (loopStepK p row test ind1) st).2.2.length = st.2.2.length) := by
  induction js with
  | nil => intro st; exact ⟨rfl, rfl⟩
  | cons j js ih =>
    intro st
    rw [List.foldl_cons]
    refine ⟨(ih _).1.trans ?_, (ih _).2.trans ?_⟩
    · exact (corrStep_lengths row test ind1 st.2 j _).1
    · exact (corrStep_lengths row test ind1 st.2 j _).2

theorem corrPair_lengths (tc : List ℚ → Nat → Nat → Bool) (k : Nat)
    (c : Correlator_Likh) :
    (corrPair tc k c).1.length = (c.correlation.getD k []).length ∧
      (corrPair tc k c).2.length = (c.ncorrelation.getD k []).length := by
  simp only [corrPair, corrLoop0, corrLoopK]
  split
  · exact foldl_loopStep0_lengths _ _ _ _ _ _
  · exact foldl_loopStepK_lengths _ _ _ _ _ _

theorem set_getD_lengths {α : Type _} (l : List (List α)) (k j : Nat)
    (v : List α) (hv : v.length = (l.getD k []).length) :
    ((l.set k v).getD j []).length = (l.getD j []).length := by
  rcases Nat.lt_or_ge k l.length with h | h
  · rcases Nat.decEq k j with h' | h'
    · rw [getD_set_ne l v [] h']
    · subst h'; rw [getD_set_self l k v [] h, hv]
  · rw [List.set_eq_of_length_le h]

/-! ## `addFuel`: configuration and output fields are untouched -/

theorem addFuel_config (tc : List ℚ → Nat → Nat → Bool) (fuel : Nat) :
    ∀ (c : Correlator_Likh) (w : ℚ) (k : Nat),
      (addFuel tc fuel c w k).numcorrelators = c.numcorrelators ∧
      (addFuel tc fuel c w k).p = c.p ∧
      (addFuel tc fuel c w k).m = c.m ∧
      (addFuel tc fuel c w k).d_min = c.d_min ∧
      (addFuel tc fuel c w k).t = c.t ∧
      (addFuel tc fuel c w k).f = c.f ∧
      (addFuel tc fuel c w k).npcorr = c.npcorr := by
  induction fuel with
  | zero => intro c w k; exact ⟨rfl, rfl, rfl, rfl, rfl, rfl, rfl⟩
  | succ n ih =>
    intro c w k
    rw [addFuel_succ]
    split
    · exact ⟨rfl, rfl, rfl, rfl, rfl, rfl, rfl⟩
    split
    · obtain ⟨h1, h2, h3, h4, h5, h6, h7⟩ :=
        ih (preCascade c w k) ((c.accumulator.getD k 0 + w) / (c.m : ℚ)) (k + 1)
      refine ⟨?_, ?_, ?_, ?_, ?_, ?_, ?_⟩ <;>
        simp only [corrPhase_numcorrelators, corrPhase_p, corrPhase_m,
          corrPhase_d_min, corrPhase_t, corrPhase_f, corrPhase_npcorr,
          postCascade_numcorrelators, postCascade_p, postCascade_m,
          postCascade_d_min, postCascade_t, postCascade_f, postCascade_npcorr,
          h1, h2, h3, h4, h5, h6, h7,
          preCascade_numcorrelators, preCascade_p, preCascade_m,
          preCascade_d_min, preCascade_t, preCascade_f, preCascade_npcorr]
    · simp

@[simp] theorem addFuel_numcorrelators (tc fuel c w k) :
    (addFuel tc fuel c w k).numcorrelators = c.numcorrelators :=
  (addFuel_config tc fuel c w k).1

@[simp] theorem addFuel_p (tc fuel c w k) :
    (addFuel tc fuel c w k).p = c.p :=
  (addFuel_config tc fuel c w k).2.1

@[simp] theorem addFuel_m (tc fuel c w k) :
    (addFuel tc fuel c w k).m = c.m :=
  (addFuel_config tc fuel c w k).2.2.1

@[simp] theorem addFuel_d_min (tc fuel c w k) :
    (addFuel tc fuel c w k).d_min = c.d_min :=
  (addFuel_config tc fuel c w k).2.2.2.1

@[simp] theorem addFuel_t (tc fuel c w k) :
    (addFuel tc fuel c w k).t = c.t :=
  (addFuel_config tc fuel c w k).2.2.2.2.1

@[simp] theorem addFuel_f (tc fuel c w k) :
    (addFuel tc fuel c w k).f = c.f :=
  (addFuel_config tc fuel c w k).2.2.2.2.2.1

@[simp] theorem addFuel_npcorr (tc fuel c w k) :
    (addFuel tc fuel c w k).npcorr = c.npcorr :=
  (addFuel_config tc fuel c w k).2.2.2.2.2.2

/-- `a` has the same array shapes as `b`: equal list lengths level-wise and
equal row lengths for the three two-dimensional arrays. -/
def SameShapes (a b : Correlator_Likh) : Prop :=
  a.shift.length = b.shift.length ∧
  a.correlation.length = b.correlation.length ∧
  a.ncorrelation.length = b.ncorrelation.length ∧
  a.accumulator.length = b.accumulator.length ∧
  a.naccumulator.length = b.naccumulator.length ∧
  a.insertindex.length = b.insertindex.length ∧
  a.nwritten.length = b.nwritten.length ∧
  (∀ j, ((a.shift.getD j []).length = (b.shift.getD j []).length)) ∧
  (∀ j, ((a.correlation.getD j []).length = (b.correlation.getD j []).length)) ∧
  (∀ j, ((a.ncorrelation.getD j []).length = (b.ncorrelation.getD j []).length))

theorem sameShapes_refl (a : Correlator_Likh) : SameShapes a a :=
  ⟨rfl, rfl, rfl, rfl, rfl, rfl, rfl, fun _ => rfl, fun _ => rfl, fun _ => rfl⟩

theorem sameShapes_trans {a b c : Correlator_Likh}
    (h1 : SameShapes a b) (h2 : SameShapes b c) : SameShapes a c := by
  obtain ⟨a1, a2, a3, a4, a5, a6, a7, a8, a9, a10⟩ := h1
  obtain ⟨b1, b2, b3, b4, b5, b6, b7, b8, b9, b10⟩ := h2
  exact ⟨a1.trans b1, a2.trans b2, a3.trans b3, a4.trans b4, a5.trans b5,
    a6.trans b6, a7.trans b7, fun j => (a8 j).trans (b8 j),
    fun j => (a9 j).trans (b9 j), fun j => (a10 j).trans (b10 j)⟩

theorem preCascade_sameShapes (c w k) : SameShapes (preCascade c w k) c := by
  refine ⟨?_, ?_, ?_, ?_, ?_, ?_, ?_, ?_, ?_, ?_⟩ <;>
    intros <;> simp only [preCascade_shift, preCascade_correlation,
      preCascade_ncorrelation, preCascade_accumulator, preCascade_naccumulator,
      preCascade_insertindex, preCascade_nwritten, List.length_set]
  · exact set_getD_lengths _ _ _ _ (List.length_set _ _ _)

theorem postCascade_sameShapes (k c) : SameShapes (postCascade k c) c := by
  refine ⟨?_, ?_, ?_, ?_, ?_, ?_, ?_, ?_, ?_, ?_⟩ <;>
    intros <;> simp only [postCascade_shift, postCascade_correlation,
      postCascade_ncorrelation, postCascade_accumulator,
      postCascade_naccumulator, postCascade_insertindex, postCascade_nwritten,
      List.length_set]

theorem corrPhase_sameShapes (tc k c) : SameShapes (corrPhase tc k c) c := by
  refine ⟨?_, ?_, ?_, ?_, ?_, ?_, ?_, ?_, ?_, ?_⟩ <;>
    intros <;> simp only [corrPhase_shift, corrPhase_correlation,
      corrPhase_ncorrelation, corrPhase_accumulator, corrPhase_naccumulator,
      corrPhase_insertindex, corrPhase_nwritten, List.length_set]
  · exact set_getD_lengths _ _ _ _ (corrPair_lengths tc k c).1
  · exact set_getD_lengths _ _ _ _ (corrPair_lengths tc k c).2

theorem addFuel_sameShapes (tc fuel) :
    ∀ c w k, SameShapes (addFuel tc fuel c w k) c := by
  induction fuel with
  | zero => intro c w k; exact sameShapes_refl c
  | succ n ih =>
    intro c w k
    rw [addFuel_succ]
    split
    · exact sameShapes_refl c
    split
    · exact sameShapes_trans (corrPhase_sameShapes tc k _)
        (sameShapes_trans (postCascade_sameShapes k _)
          (sameShapes_trans (ih _ _ (k + 1)) (preCascade_sameShapes c w k)))
    · exact sameShapes_trans (corrPhase_sameShapes tc k _)
        (preCascade_sameShapes c w k)

/-- `a` and `b` agree on all per-level state strictly below level `k`. -/
def EqBelow (k : Nat) (a b : Correlator_Likh) : Prop :=
  ∀ j, j < k →
    a.shift.getD j [] = b.shift.getD j [] ∧
    a.correlation.getD j [] = b.correlation.getD j [] ∧
    a.ncorrelation.getD j [] = b.ncorrelation.getD j [] ∧
    a.accumulator.getD j 0 = b.accumulator.getD j 0 ∧
    a.naccumulator.getD j 0 = b.naccumulator.getD j 0 ∧
    a.insertindex.getD j 0 = b.insertindex.getD j 0 ∧
    a.nwritten.getD j 0 = b.nwritten.getD j 0

theorem eqBelow_refl (k : Nat) (a : Correlator_Likh) : EqBelow k a a :=
  fun _ _ => ⟨rfl, rfl, rfl, rfl, rfl, rfl, rfl⟩

theorem eqBelow_trans {k : Nat} {a b c : Correlator_Likh}
    (h1 : EqBelow k a b) (h2 : EqBelow k b c) : EqBelow k a c := by
  intro j hj
  obtain ⟨a1, a2, a3, a4, a5, a6, a7⟩ := h1 j hj
  obtain ⟨b1, b2, b3, b4, b5, b6, b7⟩ := h2 j hj
  exact ⟨a1.trans b1, a2.trans b2, a3.trans b3, a4.trans b4, a5.trans b5,
    a6.trans b6, a7.trans b7⟩

theorem EqBelow.mono {k k' : Nat} {a b : Correlator_Likh} (h : k' ≤ k)
    (he : EqBelow k a b) : EqBelow k' a b :=
  fun j hj => he j (Nat.lt_of_lt_of_le hj h)

theorem preCascade_eqBelow (c w k) : EqBelow k (preCascade c w k) c := by
  intro j hj
  have hne : k ≠ j := Nat.ne_of_gt hj
  refine ⟨?_, ?_, ?_, ?_, ?_, ?_, ?_⟩ <;>
    simp only [preCascade_shift, preCascade_correlation,
      preCascade_ncorrelation, preCascade_accumulator, preCascade_naccumulator,
      preCascade_insertindex, preCascade_nwritten, getD_set_ne _ _ _ hne]

theorem postCascade_eqBelow (k c) : EqBelow k (postCascade k c) c := by
  intro j hj
  have hne : k ≠ j := Nat.ne_of_gt hj
  refine ⟨?_, ?_, ?_, ?_, ?_, ?_, ?_⟩ <;>
    simp only [postCascade_shift, postCascade_correlation,
      postCascade_ncorrelation, postCascade_accumulator,
      postCascade_naccumulator, postCascade_insertindex, postCascade_nwritten,
      getD_set_ne _ _ _ hne]

theorem corrPhase_eqBelow (tc k c) : EqBelow k (corrPhase tc k c) c := by
  intro j hj
  have hne : k ≠ j := Nat.ne_of_gt hj
  refine ⟨?_, ?_, ?_, ?_, ?_, ?_, ?_⟩ <;>
    simp only [corrPhase_shift, corrPhase_correlation, corrPhase_ncorrelation,
      corrPhase_accumulator, corrPhase_naccumulator, corrPhase_insertindex,
      corrPhase_nwritten, getD_set_ne _ _ _ hne]

/-- An `add` at level `k` leaves all per-level state below `k` unchanged. -/
theorem addFuel_eqBelow (tc fuel) :
    ∀ c w k, EqBelow k (addFuel tc fuel c w k) c := by
  induction fuel with
  | zero => intro c w k; exact eqBelow_refl k c
  | succ n ih =>
    intro c w k
    rw [addFuel_succ]
    split
    · exact eqBelow_refl k c
    split
    · exact eqBelow_trans (corrPhase_eqBelow tc k _)
        (eqBelow_trans (postCascade_eqBelow k _)
          (eqBelow_trans ((ih _ _ (k + 1)).mono (Nat.le_succ k))
            (preCascade_eqBelow c w k)))
    · exact eqBelow_trans (corrPhase_eqBelow tc k _)
        (preCascade_eqBelow c w k)

theorem getD_of_length_le {α : Type _} {l : List α} {j : Nat} (d : α)
    (h : l.length ≤ j) : l.getD j d = d := by
  simp [List.getD_eq_getElem?_getD, List.getElem?_eq_none h]

theorem getD_set {α : Type _} (l : List α) (i j : Nat) (v d : α) :
    (l.set i v).getD j d =
      if i = j ∧ j < l.length then v else l.getD j d := by
  by_cases hij : i = j
  · subst hij
    by_cases hl : i < l.length
    · rw [getD_set_self l i v d hl, if_pos ⟨rfl, hl⟩]
    · rw [List.set_eq_of_length_le (Nat.le_of_not_lt hl)]
      simp [hl]
  · rw [getD_set_ne l v d hij, if_neg (fun h => hij h.1)]

/-- The `add` recursion is insensitive to the amount of fuel, provided the
fuel exceeds the remaining depth `numcorrelators - k`: the cascade
strictly increases the level and stops at `numcorrelators`. -/
theorem addFuel_fuel_irrel (tc : List ℚ → Nat → Nat → Bool) :
    ∀ (fuel₁ fuel₂ : Nat) (c : Correlator_Likh) (w : ℚ) (k : Nat),
      k ≤ c.numcorrelators →
      c.numcorrelators - k < fuel₁ → c.numcorrelators - k < fuel₂ →
      addFuel tc fuel₁ c w k = addFuel tc fuel₂ c w k := by
  intro fuel₁
  induction fuel₁ with
  | zero => intro fuel₂ c w k _ h1 _; exact absurd h1 (Nat.not_lt_zero _)
  | succ n ih =>
    intro fuel₂ c w k hk h1 h2
    obtain ⟨m2, rfl⟩ : ∃ m2, fuel₂ = m2 + 1 :=
      ⟨fuel₂ - 1, (Nat.succ_pred_eq_of_pos (Nat.pos_of_ne_zero
        (fun h => by subst h; exact Nat.not_lt_zero _ h2))).symm⟩
    rw [addFuel_succ, addFuel_succ]
    by_cases hg : k = c.numcorrelators
    · rw [if_pos hg, if_pos hg]
    · rw [if_neg hg, if_neg hg]
      have hkN : k < c.numcorrelators := Nat.lt_of_le_of_ne hk hg
      congr 1
      by_cases hc : c.naccumulator.getD k 0 + 1 = c.m
      · rw [if_pos hc, if_pos hc]
        congr 1
        apply ih
        · rw [preCascade_numcorrelators]; exact hkN
        · rw [preCascade_numcorrelators]; omega
        · rw [preCascade_numcorrelators]; omega
      · rw [if_neg hc, if_neg hc]

/-- Bounds on `insertindex` and `naccumulator` for rows `≥ k` are
preserved by `addFuel … k` (rows below `k` are untouched). -/
theorem addFuel_rowBounds (tc : List ℚ → Nat → Nat → Bool) :
    ∀ (fuel : Nat) (c : Correlator_Likh) (w : ℚ) (k : Nat),
      (∀ j, k ≤ j → j < c.numcorrelators →
        c.naccumulator.getD j 0 < c.m ∧ c.insertindex.getD j 0 < c.p) →
      ∀ j, k ≤ j → j < c.numcorrelators →
        (addFuel tc fuel c w k).naccumulator.getD j 0 < c.m ∧
        (addFuel tc fuel c w k).insertindex.getD j 0 < c.p := by
  intro fuel
  induction fuel with
  | zero => intro c w k hrows j hj1 hj2; exact hrows j hj1 hj2
  | succ n ih =>
    intro c w k hrows j hj1 hj2
    rw [addFuel_succ]
    split
    · exact hrows j hj1 hj2
    case isFalse hg =>
    have hkN : k < c.numcorrelators := by
      rcases Nat.lt_or_ge k c.numcorrelators with h | h
      · exact h
      · omega
    have hpPos : 0 < c.p := by have := (hrows k le_rfl hkN).2; omega
    -- The value written into `insertindex[k]` by the correlation phase is
    -- `< p` for any state whose row-`k` cursor is `< p` or out of range.
    have hval : ∀ x : Correlator_Likh, x.p = c.p →
        x.insertindex.getD k 0 < c.p →
        (corrPhase tc k x).insertindex.getD j 0 < c.p ∨
        (corrPhase tc k x).insertindex.getD j 0 = x.insertindex.getD j 0 := by
      intro x hp hx
      rw [corrPhase_insertindex, getD_set]
      split
      · left
        rw [hp]
        split
        · exact hpPos
        · omega
      · right; rfl
    split
    case isTrue hc =>
      -- cascade: recurse at k+1, then reset row k, then the correlation
      -- phase at row k
      set c4 := preCascade c w k with hc4
      set M := addFuel tc n c4 ((c.accumulator.getD k 0 + w) / (c.m : ℚ)) (k + 1) with hM
      have hc4rows : ∀ j', k + 1 ≤ j' → j' < c4.numcorrelators →
          c4.naccumulator.getD j' 0 < c4.m ∧
          c4.insertindex.getD j' 0 < c4.p := by
        intro j' hj1' hj2'
        rw [hc4, preCascade_numcorrelators] at hj2'
        rw [hc4, preCascade_m, preCascade_p, preCascade_naccumulator,
          preCascade_insertindex, getD_set_ne _ _ _ (by omega)]
        exact hrows j' (by omega) hj2'
      have hMrows := ih c4 ((c.accumulator.getD k 0 + w) / (c.m : ℚ)) (k + 1) hc4rows
      have hMk := addFuel_eqBelow tc n c4 ((c.accumulator.getD k 0 + w) / (c.m : ℚ)) (k + 1) k (Nat.lt_succ_self k)
      rcases Nat.lt_or_ge j (k + 1) with hjk | hjk
      · -- j = k
        have hjk' : j = k := by omega
        subst hjk'
        constructor
        · rw [corrPhase_naccumulator, postCascade_naccumulator, getD_set]
          split
          · have : 0 < c.m := by
              have := (hrows j le_rfl hj2).1; omega
            exact this
          · -- out of range: `getD` gives the default 0
            have hnr : ¬ j < M.naccumulator.length := by
              rcases Nat.lt_or_ge j M.naccumulator.length with h | h
              · intro _; omega
              · exact fun h' => absurd h' (Nat.not_lt_of_ge h)
            have hlen : M.naccumulator.length ≤ j := by omega
            rw [getD_of_length_le 0 hlen]
            have := (hrows j le_rfl hj2).1; omega
        · have hxk : (postCascade j M).insertindex.getD j 0 < c.p := by
            rw [postCascade_insertindex]
            rw [hMk.2.2.2.2.2.1, hc4, preCascade_insertindex]
            exact (hrows j le_rfl hj2).2
          rcases hval (postCascade j M) (by simp [hM, hc4]) hxk with h | h
          · exact h
          · rw [h]; exact hxk
      · -- j ≥ k+1: row j was last touched by the recursive call
        have hj2' : j < c4.numcorrelators := by
          rw [hc4, preCascade_numcorrelators]; exact hj2
        have hMj := hMrows j hjk hj2'
        rw [hc4, preCascade_m, preCascade_p] at hMj
        constructor
        · rw [corrPhase_naccumulator, postCascade_naccumulator,
            getD_set_ne _ _ _ (by omega)]
          exact hMj.1
        · rw [corrPhase_insertindex, postCascade_insertindex, getD_set]
          split
          · split
            · exact hpPos
            · -- the cursor written at row k: but j ≠ k, contradiction
              omega
          · exact hMj.2
    case isFalse hc =>
      set c4 := preCascade c w k with hc4
      rcases Nat.lt_or_ge j (k + 1) with hjk | hjk
      · have hjk' : j = k := by omega
        subst hjk'
        constructor
        · rw [corrPhase_naccumulator, hc4, preCascade_naccumulator, getD_set]
          split
          · have := (hrows j le_rfl hj2).1; omega
          · case isFalse hcond =>
            rcases Nat.lt_or_ge j c.naccumulator.length with h | h
            · exact absurd ⟨rfl, h⟩ hcond
            · rw [getD_of_length_le 0 h]
              have := (hrows j le_rfl hj2).1; omega
        · have hxk : c4.insertindex.getD j 0 < c.p := by
            rw [hc4, preCascade_insertindex]
            exact (hrows j le_rfl hj2).2
          rcases hval c4 (by simp [hc4]) hxk with h | h
          · exact h
          · rw [h]; exact hxk
      · constructor
        · rw [corrPhase_naccumulator, hc4, preCascade_naccumulator,
            getD_set_ne _ _ _ (by omega)]
          exact (hrows j (by omega) hj2).1
        · rw [corrPhase_insertindex, getD_set]
          split
          · split
            · exact hpPos
            · omega
          · rw [hc4, preCascade_insertindex]
            exact (hrows j (by omega) hj2).2

/-- An `add` at a level above 0 leaves `accval` unchanged. -/
theorem addFuel_accval_of_pos (tc fuel) :
    ∀ c w k, 0 < k → (addFuel tc fuel c w k).accval = c.accval := by
  induction fuel with
  | zero => intro c w k _; rfl
  | succ n ih =>
    intro c w k hk
    rw [addFuel_succ]
    split
    · rfl
    split
    · rw [corrPhase_accval, postCascade_accval,
        ih _ _ (k + 1) (Nat.succ_pos k), preCascade_accval,
        if_neg (Nat.pos_iff_ne_zero.mp hk)]
    · rw [corrPhase_accval, preCascade_accval,
        if_neg (Nat.pos_iff_ne_zero.mp hk)]

theorem add_def (c : Correlator_Likh) (w : ℚ) (k : Nat) :
    c.add w k = addFuel sentinelTC (c.numcorrelators + 1) c w k := rfl

/-! ## `evaluate` touches only `t`, `f` and `npcorr` -/

section EvaluateProj

variable (c : Correlator_Likh) (b : Bool)

@[simp] theorem evaluate_numcorrelators :
    (c.evaluate b).numcorrelators = c.numcorrelators := rfl

@[simp] theorem evaluate_p : (c.evaluate b).p = c.p := rfl

@[simp] theorem evaluate_m : (c.evaluate b).m = c.m := rfl

@[simp] theorem evaluate_d_min : (c.evaluate b).d_min = c.d_min := rfl

@[simp] theorem evaluate_shift : (c.evaluate b).shift = c.shift := rfl

@[simp] theorem evaluate_correlation :
    (c.evaluate b).correlation = c.correlation := rfl

@[simp] theorem evaluate_ncorrelation :
    (c.evaluate b).ncorrelation = c.ncorrelation := rfl

@[simp] theorem evaluate_accumulator :
    (c.evaluate b).accumulator = c.accumulator := rfl

@[simp] theorem evaluate_naccumulator :
    (c.evaluate b).naccumulator = c.naccumulator := rfl

@[simp] theorem evaluate_insertindex :
    (c.evaluate b).insertindex = c.insertindex := rfl

@[simp] theorem evaluate_nwritten : (c.evaluate b).nwritten = c.nwritten := rfl

@[simp] theorem evaluate_kmax : (c.evaluate b).kmax = c.kmax := rfl

@[simp] theorem evaluate_accval : (c.evaluate b).accval = c.accval := rfl

end EvaluateProj

/-! ## The index/accumulator bounds invariant (claim C8) -/

/-- The bounds invariant of the spec (§3): every level's circular-buffer
cursor is `< p` and every level's pending-group count is `< m`.  (The
lower bounds `0 ≤ …` of the claim are automatic: both fields are natural
numbers.) -/
def IdxInv (c : Correlator_Likh) : Prop :=
  ∀ k, k < c.numcorrelators →
    c.insertindex.getD k 0 < c.p ∧ c.naccumulator.getD k 0 < c.m

theorem initState_idxInv (N p m : Nat) (hp : 0 < p) (hm : 0 < m) :
    IdxInv (initState N p m) := by
  intro k hk
  have hk' : k < N := hk
  constructor <;>
    simp [initState, getD_replicate, hk', hp, hm]

theorem add_preserves_idxInv (c : Correlator_Likh) (w : ℚ) (k : Nat)
    (h : IdxInv c) : IdxInv (c.add w k) := by
  intro j hj
  rw [add_def] at hj ⊢
  rw [addFuel_numcorrelators] at hj
  simp only [addFuel_p, addFuel_m]
  rcases Nat.lt_or_ge j k with hjk | hjk
  · have he := addFuel_eqBelow sentinelTC (c.numcorrelators + 1) c w k j hjk
    rw [he.2.2.2.2.2.1, he.2.2.2.2.1]
    exact h j hj
  · have hb := addFuel_rowBounds sentinelTC (c.numcorrelators + 1) c w k
      (fun j' _ hj' => ⟨(h j' hj').2, (h j' hj').1⟩) j hjk hj
    exact ⟨hb.2, hb.1⟩

theorem evaluate_preserves_idxInv (c : Correlator_Likh) (b : Bool)
    (h : IdxInv c) : IdxInv (c.evaluate b) := h

/-- **C8**: starting from the state established by `initialize` with
`p ≥ 1` and `m ≥ 1`, every operation — `add` at any level and `evaluate` —
preserves `0 ≤ insertindex[k] < p` and `0 ≤ naccumulator[k] < m` for every
level `k` (the lower bounds hold because the fields are naturals). -/
theorem C8_index_bounds_invariant (N p m : Nat) (hp : 0 < p) (hm : 0 < m) :
    IdxInv (initState N p m) ∧
    (∀ (c : Correlator_Likh) (w : ℚ) (k : Nat), IdxInv c → IdxInv (c.add w k)) ∧
    (∀ (c : Correlator_Likh) (b : Bool), IdxInv c → IdxInv (c.evaluate b)) :=
  ⟨initState_idxInv N p m hp hm,
   fun c w k h => add_preserves_idxInv c w k h,
   fun c b h => evaluate_preserves_idxInv c b h⟩

theorem C8_index_bounds_invariant_witness :
    IdxInv (initState 2 3 2) ∧
    (∀ (c : Correlator_Likh) (w : ℚ) (k : Nat), IdxInv c → IdxInv (c.add w k)) ∧
    (∀ (c : Correlator_Likh) (b : Bool), IdxInv c → IdxInv (c.evaluate b)) :=
  C8_index_bounds_invariant 2 3 2 (by decide) (by decide)

/-- **C9**: every `add(w, k)` call with `k ≤ numcorrelators` terminates
with recursion depth bounded by `numcorrelators - k ≤ numcorrelators`:
any fuel beyond that bound computes the same final state as `add` itself,
and the state is produced by the completed cascade (no deferred work). -/
theorem C9_add_terminates (c : Correlator_Likh) (w : ℚ) (k fuel : Nat)
    (hk : k ≤ c.numcorrelators) (hf : c.numcorrelators - k < fuel) :
    addFuel sentinelTC fuel c w k = c.add w k :=
  addFuel_fuel_irrel sentinelTC fuel (c.numcorrelators + 1) c w k hk hf
    (by omega)

theorem C9_add_terminates_witness :
    addFuel sentinelTC 3 (initState 2 2 2) 1 0 = (initState 2 2 2).add 1 0 :=
  C9_add_terminates (initState 2 2 2) 1 0 3 (by decide) (by decide)

/-- **C10**: an `add` at a level `k` with `1 ≤ k < numcorrelators` leaves
`accval` unchanged and leaves the entire per-level state of every level
`j < k` unchanged. -/
theorem C10_add_frame_below (c : Correlator_Likh) (w : ℚ) (k : Nat)
    (hk1 : 1 ≤ k) (_hk2 : k < c.numcorrelators) :
    (c.add w k).accval = c.accval ∧
    ∀ j, j < k →
      (c.add w k).shift.getD j [] = c.shift.getD j [] ∧
      (c.add w k).correlation.getD j [] = c.correlation.getD j [] ∧
      (c.add w k).ncorrelation.getD j [] = c.ncorrelation.getD j [] ∧
      (c.add w k).accumulator.getD j 0 = c.accumulator.getD j 0 ∧
      (c.add w k).naccumulator.getD j 0 = c.naccumulator.getD j 0 ∧
      (c.add w k).insertindex.getD j 0 = c.insertindex.getD j 0 := by
  rw [add_def]
  refine ⟨addFuel_accval_of_pos sentinelTC (c.numcorrelators + 1) c w k hk1,
    fun j hj => ?_⟩
  have he := addFuel_eqBelow sentinelTC (c.numcorrelators + 1) c w k j hj
  exact ⟨he.1, he.2.1, he.2.2.1, he.2.2.2.1, he.2.2.2.2.1, he.2.2.2.2.2.1⟩

theorem C10_add_frame_below_witness :
    ((initState 3 2 2).add 7 1).accval = (initState 3 2 2).accval ∧
    ∀ j, j < 1 →
      (((initState 3 2 2).add 7 1).shift.getD j [] =
        (initState 3 2 2).shift.getD j []) ∧
      (((initState 3 2 2).add 7 1).correlation.getD j [] =
        (initState 3 2 2).correlation.getD j []) ∧
      (((initState 3 2 2).add 7 1).ncorrelation.getD j [] =
        (initState 3 2 2).ncorrelation.getD j []) ∧
      (((initState 3 2 2).add 7 1).accumulator.getD j 0 =
        (initState 3 2 2).accumulator.getD j 0) ∧
      (((initState 3 2 2).add 7 1).naccumulator.getD j 0 =
        (initState 3 2 2).naccumulator.getD j 0) ∧
      (((initState 3 2 2).add 7 1).insertindex.getD j 0 =
        (initState 3 2 2).insertindex.getD j 0) :=
  C10_add_frame_below (initState 3 2 2) 7 1 (by decide) (by decide)

/-- **C3** (code bug): the source's depth guard is `k == numcorrelators`
(line 98), not `k >= numcorrelators` as its own comment ("If we exceed the
correlator side, the value is discarded") and the spec describe.  With
`numcorrelators = 1`, `add(5, 1)` is indeed a perfect no-op, but
`add(5, 2)` passes the guard and mutates `kmax` to 2 (line 99) before
indexing every per-level array at row 2 — out of bounds in the C++ (the
embedding models out-of-range writes as dropped, so only the `kmax`
mutation is visible here). -/
theorem C3_depth_guard_bug :
    ((initState 1 2 2).add 5 2).kmax = 2 ∧ (initState 1 2 2).kmax = 0 ∧
    (initState 1 2 2).add 5 1 = initState 1 2 2 :=
  ⟨rfl, rfl, rfl⟩

/-! ## Overlay: writing a block of values at consecutive positions -/

/-- Write the values `vs` into `l` at consecutive positions starting at
`i` (out-of-range writes are dropped, as with `List.set`). -/
def overlay {α : Type _} : List α → Nat → List α → List α
  | l, _, [] => l
  | l, i, v :: vs => overlay (l.set i v) (i + 1) vs

@[simp] theorem overlay_nil {α : Type _} (l : List α) (i : Nat) :
    overlay l i [] = l := rfl

theorem overlay_cons {α : Type _} (l : List α) (i : Nat) (v : α) (vs : List α) :
    overlay l i (v :: vs) = overlay (l.set i v) (i + 1) vs := rfl

theorem length_overlay {α : Type _} (vs : List α) :
    ∀ (l : List α) (i : Nat), (overlay l i vs).length = l.length := by
  induction vs with
  | nil => intros; rfl
  | cons v vs ih =>
    intro l i
    rw [overlay_cons, ih, List.length_set]

theorem getD_overlay_lt {α : Type _} (vs : List α) :
    ∀ (l : List α) (i j : Nat) (d : α), j < i →
      (overlay l i vs).getD j d = l.getD j d := by
  induction vs with
  | nil => intros; rfl
  | cons v vs ih =>
    intro l i j d hj
    rw [overlay_cons, ih (l.set i v) (i + 1) j d (Nat.lt_succ_of_lt hj),
      getD_set_ne _ _ _ (by omega)]

theorem getD_overlay_ge {α : Type _} (vs : List α) :
    ∀ (l : List α) (i j : Nat) (d : α), i + vs.length ≤ j →
      (overlay l i vs).getD j d = l.getD j d := by
  induction vs with
  | nil => intros; rfl
  | cons v vs ih =>
    intro l i j d hj
    rw [List.length_cons] at hj
    rw [overlay_cons, ih (l.set i v) (i + 1) j d (by omega),
      getD_set_ne _ _ _ (by omega)]

theorem getD_overlay_mem {α : Type _} (vs : List α) :
    ∀ (l : List α) (i j : Nat) (d : α), i ≤ j → j < i + vs.length →
      j < l.length →
      (overlay l i vs).getD j d = vs.getD (j - i) d := by
  induction vs with
  | nil =>
    intro l i j d h1 h2 _
    rw [List.length_nil] at h2; omega
  | cons v vs ih =>
    intro l i j d h1 h2 h3
    rcases Nat.eq_or_lt_of_le h1 with h | h
    · subst h
      rw [overlay_cons, getD_overlay_lt vs (l.set i v) (i + 1) i d
        (Nat.lt_succ_self i), getD_set_self l i v d h3, Nat.sub_self]
      rfl
    · rw [overlay_cons, ih (l.set i v) (i + 1) j d h
        (by rw [List.length_cons] at h2; omega) (by rw [List.length_set]; exact h3)]
      have hji : j - i = (j - (i + 1)) + 1 := by omega
      rw [hji]
      rfl

theorem overlay_set_comm {α : Type _} (vs : List α) :
    ∀ (l : List α) (i j : Nat) (v : α), j < i →
      overlay (l.set j v) i vs = (overlay l i vs).set j v := by
  induction vs with
  | nil => intros; rfl
  | cons x vs ih =>
    intro l i j v hj
    rw [overlay_cons, overlay_cons,
      List.set_comm v x l (Nat.ne_of_lt hj),
      ih (l.set i x) (i + 1) j v (Nat.lt_succ_of_lt hj)]

theorem overlay_overlay {α : Type _} (vs : List α) :
    ∀ (l : List α) (i : Nat), overlay (overlay l i vs) i vs = overlay l i vs := by
  induction vs with
  | nil => intros; rfl
  | cons x vs ih =>
    intro l i
    rw [overlay_cons, overlay_cons,
      ← overlay_set_comm vs (l.set i x) (i + 1) i x (Nat.lt_succ_self i),
      List.set_set, ih]

/-! ## The emit loop of `evaluate`, declaratively -/

/-- The writing pattern of `evaluate` (source lines 160-177): each emitted
pair is written at the cursor `im` into `t`/`f`, and the cursor advances. -/
def emitFold (items : List (ℚ × ℚ)) (st : Nat × List ℚ × List ℚ) :
    Nat × List ℚ × List ℚ :=
  items.foldl
    (fun st pr => (st.1 + 1, st.2.1.set st.1 pr.1, st.2.2.set st.1 pr.2)) st

theorem emitFold_append (items1 items2 : List (ℚ × ℚ)) (st) :
    emitFold (items1 ++ items2) st = emitFold items2 (emitFold items1 st) :=
  List.foldl_append _ _ _ _

theorem emitFold_eq_overlay (items : List (ℚ × ℚ)) :
    ∀ (n : Nat) (t f : List ℚ),
      emitFold items (n, t, f) =
        (n + items.length, overlay t n (items.map Prod.fst),
          overlay f n (items.map Prod.snd)) := by
  induction items with
  | nil => intro n t f; simp [emitFold]
  | cons pr items ih =>
    intro n t f
    show emitFold items (n + 1, t.set n pr.1, f.set n pr.2) = _
    rw [ih]
    simp only [List.map_cons, List.length_cons, overlay_cons]
    refine congrArg (fun x => (x, _, _)) ?_
    omega

theorem foldl_emit_filterMap {β : Type _} (cond : β → Prop)
    [DecidablePred cond] (g1 g2 : β → ℚ) (L : List β) :
    ∀ st : Nat × List ℚ × List ℚ,
      L.foldl
        (fun st x =>
          if cond x then
            (st.1 + 1, st.2.1.set st.1 (g1 x), st.2.2.set st.1 (g2 x))
          else st) st
      = emitFold (L.filterMap fun x =>
          if cond x then some (g1 x, g2 x) else none) st := by
  induction L with
  | nil => intro st; rfl
  | cons x L ih =>
    intro st
    rw [List.foldl_cons, List.filterMap_cons]
    by_cases hx : cond x
    · rw [if_pos hx, if_pos hx, emitFold, List.foldl_cons, ← emitFold, ih]
    · rw [if_neg hx, if_neg hx, ih]

theorem foldl_emitFold_flatMap {β : Type _} (F : β → List (ℚ × ℚ))
    (L : List β) :
    ∀ st : Nat × List ℚ × List ℚ,
      L.foldl (fun st x => emitFold (F x) st) st = emitFold (L.flatMap F) st := by
  induction L with
  | nil => intro st; rfl
  | cons x L ih =>
    intro st
    rw [List.foldl_cons, List.flatMap_cons, emitFold_append, ih]

/-- The emit loop of `evaluate` in closed form: it overlays the
declarative pair list onto the output arrays starting at position 0, and
the final cursor is the pair count. -/
theorem evalLoop_eq_overlay (c : Correlator_Likh) (b : Bool) :
    c.evalLoop b =
      ((c.evalPairs b).length,
        overlay c.t 0 ((c.evalPairs b).map Prod.fst),
        overlay c.f 0 ((c.evalPairs b).map Prod.snd)) := by
  unfold evalLoop evalPairs
  rw [foldl_emit_filterMap
    (fun i => 0 < (c.ncorrelation.getD 0 []).getD i 0)
    (fun i => (i : ℚ))
    (fun i => (c.correlation.getD 0 []).getD i 0 /
      (((c.ncorrelation.getD 0 []).getD i 0 : Nat) : ℚ) - c.evalAux b)
    (List.range c.p)]
  have hinner : ∀ k : Nat, ∀ st : Nat × List ℚ × List ℚ,
      (List.range' c.d_min (c.p - c.d_min)).foldl
        (fun st i =>
          if 0 < (c.ncorrelation.getD k []).getD i 0 then
            (st.1 + 1,
             st.2.1.set st.1 ((i : ℚ) * ((c.m : ℚ)) ^ k),
             st.2.2.set st.1
               ((c.correlation.getD k []).getD i 0 /
                  (((c.ncorrelation.getD k []).getD i 0 : Nat) : ℚ) -
                    c.evalAux b))
          else st) st
      = emitFold ((List.range' c.d_min (c.p - c.d_min)).filterMap fun i =>
          if 0 < (c.ncorrelation.getD k []).getD i 0 then
            some ((i : ℚ) * ((c.m : ℚ)) ^ k,
              (c.correlation.getD k []).getD i 0 /
                (((c.ncorrelation.getD k []).getD i 0 : Nat) : ℚ) -
                  c.evalAux b)
          else none) st := by
    intro k st
    exact foldl_emit_filterMap _ _ _ _ st
  simp only [hinner]
  rw [foldl_emitFold_flatMap]
  rw [← emitFold_append]
  rw [emitFold_eq_overlay]
  simp

/-- `evaluate` in closed form. -/
theorem evaluate_eq_overlay (c : Correlator_Likh) (b : Bool) :
    c.evaluate b =
      { c with
        t := overlay c.t 0 ((c.evalPairs b).map Prod.fst),
        f := overlay c.f 0 ((c.evalPairs b).map Prod.snd),
        npcorr := (c.evalPairs b).length } := by
  unfold evaluate
  rw [evalLoop_eq_overlay]

/-- `evalPairs` does not read `t`, `f` or `npcorr`. -/
theorem evalPairs_update_tfn (c : Correlator_Likh) (T F : List ℚ) (n : Nat)
    (b : Bool) :
    evalPairs { c with t := T, f := F, npcorr := n } b = evalPairs c b := rfl

theorem evaluate_evaluate (c : Correlator_Likh) (b : Bool) :
    (c.evaluate b).evaluate b = c.evaluate b := by
  have hP : (c.evaluate b).evalPairs b = c.evalPairs b := rfl
  rw [evaluate_eq_overlay (c.evaluate b) b, hP, evaluate_eq_overlay c b]
  dsimp only
  rw [overlay_overlay, overlay_overlay]

/-- **C7**: `evaluate` never mutates accumulation state — it leaves
`shift`, `correlation`, `ncorrelation`, `accumulator`, `naccumulator`,
`insertindex`, `kmax` and `accval` unchanged (it writes only `t`, `f` and
`npcorr`) — and a second `evaluate` with the same `norm` argument and no
intervening `add` reproduces the exact same state, in particular the same
`t`, `f` and `npcorr`. -/
theorem C7_evaluate_pure (c : Correlator_Likh) (b : Bool) :
    (c.evaluate b).shift = c.shift ∧
    (c.evaluate b).correlation = c.correlation ∧
    (c.evaluate b).ncorrelation = c.ncorrelation ∧
    (c.evaluate b).accumulator = c.accumulator ∧
    (c.evaluate b).naccumulator = c.naccumulator ∧
    (c.evaluate b).insertindex = c.insertindex ∧
    (c.evaluate b).kmax = c.kmax ∧
    (c.evaluate b).accval = c.accval ∧
    (c.evaluate b).evaluate b = c.evaluate b :=
  ⟨rfl, rfl, rfl, rfl, rfl, rfl, rfl, rfl, evaluate_evaluate c b⟩

/-! ## Claim C1: the emitted output, declaratively -/

theorem flatMap_length_le {β γ : Type _} (L : List β) (F : β → List γ)
    (B : Nat) (h : ∀ x ∈ L, (F x).length ≤ B) :
    (L.flatMap F).length ≤ L.length * B := by
  induction L with
  | nil => simp
  | cons x L ih =>
    rw [List.flatMap_cons, List.length_append, List.length_cons,
      Nat.succ_mul]
    have h1 := h x (List.mem_cons_self x L)
    have h2 := ih (fun y hy => h y (List.mem_cons_of_mem x hy))
    omega

theorem evalPairs_length_le (c : Correlator_Likh) (b : Bool)
    (hk : c.kmax < c.numcorrelators) :
    (c.evalPairs b).length ≤ c.numcorrelators * c.p := by
  unfold evalPairs
  rw [List.length_append]
  have h1 : ((List.range c.p).filterMap fun i =>
      if 0 < (c.ncorrelation.getD 0 []).getD i 0 then
        some ((i : ℚ),
          (c.correlation.getD 0 []).getD i 0 /
            (((c.ncorrelation.getD 0 []).getD i 0 : Nat) : ℚ) - c.evalAux b)
      else none).length ≤ c.p := by
    calc _ ≤ (List.range c.p).length := List.length_filterMap_le _ _
    _ = c.p := List.length_range c.p
  have h2 : ((List.range' 1 (c.kmax - 1)).flatMap fun k =>
      (List.range' c.d_min (c.p - c.d_min)).filterMap fun i =>
        if 0 < (c.ncorrelation.getD k []).getD i 0 then
          some ((i : ℚ) * ((c.m : ℚ)) ^ k,
            (c.correlation.getD k []).getD i 0 /
              (((c.ncorrelation.getD k []).getD i 0 : Nat) : ℚ) -
                c.evalAux b)
        else none).length ≤ (c.kmax - 1) * c.p := by
    calc _ ≤ (List.range' 1 (c.kmax - 1)).length * c.p := by
          apply flatMap_length_le
          intro x _
          calc _ ≤ (List.range' c.d_min (c.p - c.d_min)).length :=
                List.length_filterMap_le _ _
          _ = c.p - c.d_min := List.length_range' _ _ _
          _ ≤ c.p := Nat.sub_le _ _
    _ = (c.kmax - 1) * c.p := by rw [List.length_range']
  have h3 : c.p + (c.kmax - 1) * c.p ≤ c.numcorrelators * c.p := by
    have : 1 + (c.kmax - 1) ≤ c.numcorrelators := by omega
    calc c.p + (c.kmax - 1) * c.p = (1 + (c.kmax - 1)) * c.p := by
          rw [Nat.add_mul, Nat.one_mul]
    _ ≤ c.numcorrelators * c.p := Nat.mul_le_mul_right c.p this
  omega

theorem getD_map_of_lt {β γ : Type _} (f : β → γ) (l : List β) (j : Nat)
    (d : γ) (d0 : β) (h : j < l.length) :
    (l.map f).getD j d = f (l.getD j d0) := by
  rcases List.getElem?_eq_some_iff.mpr ⟨h, rfl⟩ with hx
  rw [List.getD_eq_getElem?_getD, List.getElem?_map, hx,
    List.getD_eq_getElem?_getD, hx]
  rfl

/-- **C1**: on any engine whose output arrays have their constructed
capacity `numcorrelators * p` and whose `kmax` is within range (both hold
for every engine the API can build), `evaluate(norm)` emits exactly the
pairs of `evalPairs` — for level 0, one `(i, correlation[0][i] /
ncorrelation[0][i] - aux)` pair per lag `i ∈ [0, p)` with a positive
count, then for each level `k ∈ [1, kmax)` one `(i·m^k, correlation[k][i]
/ ncorrelation[k][i] - aux)` pair per lag `i ∈ [d_min, p)` with a positive
count — and `npcorr` is the total number of pairs emitted. -/
theorem C1_evaluate_output (c : Correlator_Likh) (b : Bool)
    (ht : c.t.length = c.numcorrelators * c.p)
    (hf : c.f.length = c.numcorrelators * c.p)
    (hk : c.kmax < c.numcorrelators) :
    (c.evaluate b).npcorr = (c.evalPairs b).length ∧
    ∀ j, j < (c.evalPairs b).length →
      (c.evaluate b).t.getD j 0 = ((c.evalPairs b).getD j (0, 0)).1 ∧
      (c.evaluate b).f.getD j 0 = ((c.evalPairs b).getD j (0, 0)).2 := by
  rw [evaluate_eq_overlay]
  refine ⟨rfl, fun j hj => ?_⟩
  have hb := evalPairs_length_le c b hk
  have hjt : j < c.t.length := by omega
  have hjf : j < c.f.length := by omega
  constructor
  · show (overlay c.t 0 ((c.evalPairs b).map Prod.fst)).getD j 0 = _
    rw [getD_overlay_mem _ _ _ _ _ (Nat.zero_le j)
      (by rw [List.length_map]; omega) hjt, Nat.sub_zero,
      getD_map_of_lt Prod.fst _ j 0 (0, 0) hj]
  · show (overlay c.f 0 ((c.evalPairs b).map Prod.snd)).getD j 0 = _
    rw [getD_overlay_mem _ _ _ _ _ (Nat.zero_le j)
      (by rw [List.length_map]; omega) hjf, Nat.sub_zero,
      getD_map_of_lt Prod.snd _ j 0 (0, 0) hj]

theorem C1_evaluate_output_witness :
    ((initState 2 4 2).evaluate true).npcorr =
      ((initState 2 4 2).evalPairs true).length ∧
    ∀ j, j < ((initState 2 4 2).evalPairs true).length →
      ((initState 2 4 2).evaluate true).t.getD j 0 =
        (((initState 2 4 2).evalPairs true).getD j (0, 0)).1 ∧
      ((initState 2 4 2).evaluate true).f.getD j 0 =
        (((initState 2 4 2).evalPairs true).getD j (0, 0)).2 :=
  C1_evaluate_output (initState 2 4 2) true (by decide) (by decide) (by decide)

/-! ## Claim C6: the sentinel test vs. the "actually written" test -/

theorem succ_mod_eq (nw p : Nat) (hp : 0 < p) :
    (nw + 1) % p = if nw % p + 1 = p then 0 else nw % p + 1 := by
  rw [Nat.add_mod]
  have h1 : 1 % p ≤ 1 := Nat.mod_le 1 p
  have h2 : nw % p < p := Nat.mod_lt nw hp
  by_cases hq : nw % p + 1 = p
  · rw [if_pos hq]
    rcases Nat.lt_or_ge 1 p with h | h
    · rw [Nat.mod_eq_of_lt h, hq, Nat.mod_self]
    · have hp1 : p = 1 := by omega
      subst hp1; simp [Nat.mod_one]
  · rw [if_neg hq]
    have hp1 : 1 < p := by omega
    rw [Nat.mod_eq_of_lt hp1, Nat.mod_eq_of_lt (by omega)]

theorem fold0_congr (p : Nat) (row : List ℚ) (t1 t2 : Nat → Bool)
    (ind1 : Nat) (ht : ∀ s, s < p → t1 s = t2 s) (js : List Nat) :
    ∀ st : Int × List ℚ × List Nat, 0 ≤ st.1 → st.1 < (p : Int) →
      js.foldl (loopStep0 p row t1 ind1) st =
        js.foldl (loopStep0 p row t2 ind1) st := by
  induction js with
  | nil => intros; rfl
  | cons j js ih =>
    intro st h0 hp
    rw [List.foldl_cons, List.foldl_cons]
    have htest : t1 st.1.toNat = t2 st.1.toNat := ht st.1.toNat (by omega)
    have hstep : loopStep0 p row t1 ind1 st j = loopStep0 p row t2 ind1 st j := by
      unfold loopStep0 corrStep
      rw [htest]
    rw [hstep]
    apply ih
    · show (0 : Int) ≤ (loopStep0 p row t2 ind1 st j).1
      unfold loopStep0
      dsimp only
      split <;> omega
    · show (loopStep0 p row t2 ind1 st j).1 < (p : Int)
      unfold loopStep0
      dsimp only
      split <;> omega

theorem foldK_congr (p : Nat) (row : List ℚ) (t1 t2 : Nat → Bool)
    (ind1 : Nat) (ht : ∀ s, s < p → t1 s = t2 s) (js : List Nat) :
    ∀ st : Int × List ℚ × List Nat, -(p : Int) ≤ st.1 → st.1 < (p : Int) →
      js.foldl (loopStepK p row t1 ind1) st =
        js.foldl (loopStepK p row t2 ind1) st := by
  induction js with
  | nil => intros; rfl
  | cons j js ih =>
    intro st h0 hp
    rw [List.foldl_cons, List.foldl_cons]
    have hf0 : (0 : Int) ≤ (if st.1 < 0 then st.1 + (p : Int) else st.1) := by
      split <;> omega
    have hfp : (if st.1 < 0 then st.1 + (p : Int) else st.1) < (p : Int) := by
      split <;> omega
    have htest :
        t1 (if st.1 < 0 then st.1 + (p : Int) else st.1).toNat =
        t2 (if st.1 < 0 then st.1 + (p : Int) else st.1).toNat :=
      ht _ (by omega)
    have hstep : loopStepK p row t1 ind1 st j = loopStepK p row t2 ind1 st j := by
      simp only [loopStepK, corrStep]
      rw [htest]
    rw [hstep]
    apply ih
    · show -(p : Int) ≤ (loopStepK p row t2 ind1 st j).1
      unfold loopStepK
      dsimp only
      split <;> omega
    · show (loopStepK p row t2 ind1 st j).1 < (p : Int)
      unfold loopStepK
      dsimp only
      split <;> omega

theorem fold0_congr1 (p : Nat) (row : List ℚ) (t1 t2 : Nat → Bool)
    (ind1 : Nat) (ht : ∀ s, s < p → t1 s = t2 s) (js : List Nat)
    (i2 : Int) (cr : List ℚ) (nr : List Nat) (h0 : 0 ≤ i2)
    (hp : i2 < (p : Int)) :
    js.foldl (loopStep0 p row t1 ind1) (i2, cr, nr) =
      js.foldl (loopStep0 p row t2 ind1) (i2, cr, nr) :=
  fold0_congr p row t1 t2 ind1 ht js (i2, cr, nr) h0 hp

theorem foldK_congr1 (p : Nat) (row : List ℚ) (t1 t2 : Nat → Bool)
    (ind1 : Nat) (ht : ∀ s, s < p → t1 s = t2 s) (js : List Nat)
    (i2 : Int) (cr : List ℚ) (nr : List Nat) (h0 : -(p : Int) ≤ i2)
    (hp : i2 < (p : Int)) :
    js.foldl (loopStepK p row t1 ind1) (i2, cr, nr) =
      js.foldl (loopStepK p row t2 ind1) (i2, cr, nr) :=
  foldK_congr p row t1 t2 ind1 ht js (i2, cr, nr) h0 hp

theorem corrPair_congr (tc1 tc2 : List ℚ → Nat → Nat → Bool) (k : Nat)
    (c : Correlator_Likh) (hp : 0 < c.p) (hd : c.d_min ≤ c.p)
    (hind : c.insertindex.getD k 0 < c.p)
    (ht : ∀ s, s < c.p →
      tc1 (c.shift.getD k []) (c.nwritten.getD k 0) s =
      tc2 (c.shift.getD k []) (c.nwritten.getD k 0) s) :
    corrPair tc1 k c = corrPair tc2 k c := by
  unfold corrPair corrLoop0 corrLoopK
  split
  · dsimp only
    rw [fold0_congr1 c.p (c.shift.getD k [])
      (tc1 (c.shift.getD k []) (c.nwritten.getD k 0))
      (tc2 (c.shift.getD k []) (c.nwritten.getD k 0))
      (c.insertindex.getD k 0) ht (List.range c.p)
      ((c.insertindex.getD k 0 : Int)) (c.correlation.getD k [])
      (c.ncorrelation.getD k []) (by omega) (by omega)]
  · dsimp only
    rw [foldK_congr1 c.p (c.shift.getD k [])
      (tc1 (c.shift.getD k []) (c.nwritten.getD k 0))
      (tc2 (c.shift.getD k []) (c.nwritten.getD k 0))
      (c.insertindex.getD k 0) ht (List.range' c.d_min (c.p - c.d_min))
      ((c.insertindex.getD k 0 : Int) - (c.d_min : Int))
      (c.correlation.getD k []) (c.ncorrelation.getD k [])
      (by omega) (by omega)]

/-- Row invariant relating the sentinel encoding with the ghost written
counter: the row's buffer has length `p`, the cursor is the written count
mod `p`, the slots already written hold values above the threshold, the
others still hold the sentinel, and the pending group sum is bounded below
by `naccumulator · threshold` (each pending sample was above the
threshold). -/
def RowInv (c : Correlator_Likh) (k : Nat) : Prop :=
  (c.shift.getD k []).length = c.p ∧
  c.insertindex.getD k 0 = c.nwritten.getD k 0 % c.p ∧
  (∀ i, i < c.p →
    (i < c.nwritten.getD k 0 → threshold < (c.shift.getD k []).getD i sentinel) ∧
    (c.nwritten.getD k 0 ≤ i → (c.shift.getD k []).getD i sentinel = sentinel)) ∧
  ((c.naccumulator.getD k 0 : ℚ) * threshold ≤ c.accumulator.getD k 0)

theorem corrPhase_congr (tc1 tc2 : List ℚ → Nat → Nat → Bool) (k : Nat)
    (c : Correlator_Likh) (h : corrPair tc1 k c = corrPair tc2 k c) :
    corrPhase tc1 k c = corrPhase tc2 k c := by
  unfold corrPhase
  rw [h]

theorem RowInv_transfer (c' c : Correlator_Likh) (j : Nat)
    (hp : c'.p = c.p)
    (hsh : c'.shift.getD j [] = c.shift.getD j [])
    (hins : c'.insertindex.getD j 0 = c.insertindex.getD j 0)
    (hnw : c'.nwritten.getD j 0 = c.nwritten.getD j 0)
    (hacc : c'.accumulator.getD j 0 = c.accumulator.getD j 0)
    (hnacc : c'.naccumulator.getD j 0 = c.naccumulator.getD j 0)
    (h : RowInv c j) : RowInv c' j := by
  unfold RowInv at h ⊢
  rw [hp, hsh, hins, hnw, hacc, hnacc]
  exact h

theorem sentinel_le_threshold : ¬ threshold < sentinel := by
  unfold sentinel threshold
  norm_num

/-- The buffer write of `preCascade` preserves the written-prefix
description of a row: with `nw` slots written and the cursor at
`nw % p`, writing a value above the threshold there makes the row match
the description for `nw + 1` written slots. -/
theorem writtenPrefix_step (row : List ℚ) (p nw : Nat) (w : ℚ)
    (hp : 0 < p) (hlen : row.length = p) (hw : threshold < w)
    (hrow : ∀ i, i < p →
      (i < nw → threshold < row.getD i sentinel) ∧
      (nw ≤ i → row.getD i sentinel = sentinel)) :
    ∀ i, i < p →
      (i < nw + 1 → threshold < (row.set (nw % p) w).getD i sentinel) ∧
      (nw + 1 ≤ i → (row.set (nw % p) w).getD i sentinel = sentinel) := by
  intro i hi
  by_cases hieq : nw % p = i
  · subst hieq
    rw [getD_set_self row _ w sentinel (by omega)]
    constructor
    · intro _; exact hw
    · intro hge
      exfalso
      have : nw % p ≤ nw := Nat.mod_le nw p
      omega
  · rw [getD_set_ne row w sentinel hieq]
    constructor
    · intro hlt
      rcases Nat.lt_or_ge i nw with h | h
      · exact (hrow i hi).1 h
      · -- i = nw; then nw < p so nw % p = nw = i, contradiction
        have hieq2 : i = nw := by omega
        subst hieq2
        rw [Nat.mod_eq_of_lt hi] at hieq
        exact absurd rfl hieq
    · intro hge
      exact (hrow i hi).2 (by omega)

/-- Core bisimulation: on a well-formed state whose rows `≥ k` satisfy the
row invariant, `add` with the source's sentinel validity test computes the
same state as `add` with the "actually written" test, and the row
invariant is preserved — provided the inserted value is above the
threshold (cascaded averages then stay above it too). -/
theorem addFuel_tc_eq :
    ∀ (fuel : Nat) (c : Correlator_Likh) (w : ℚ) (k : Nat),
      0 < c.p → c.d_min ≤ c.p →
      c.shift.length = c.numcorrelators →
      c.insertindex.length = c.numcorrelators →
      c.nwritten.length = c.numcorrelators →
      c.accumulator.length = c.numcorrelators →
      c.naccumulator.length = c.numcorrelators →
      k ≤ c.numcorrelators →
      (∀ j, k ≤ j → j < c.numcorrelators → RowInv c j) →
      threshold < w →
      addFuel sentinelTC fuel c w k = addFuel writtenTC fuel c w k ∧
      (∀ j, k ≤ j → j < c.numcorrelators →
        RowInv (addFuel sentinelTC fuel c w k) j) := by
  intro fuel
  induction fuel with
  | zero => intro c w k _ _ _ _ _ _ _ _ hrows _; exact ⟨rfl, hrows⟩
  | succ n ih =>
    intro c w k hp hd hLsh hLii hLnw hLacc hLnacc hkN hrows hw
    by_cases hg : k = c.numcorrelators
    · rw [addFuel_succ, addFuel_succ, if_pos hg, if_pos hg]
      exact ⟨rfl, hrows⟩
    have hkN' : k < c.numcorrelators := Nat.lt_of_le_of_ne hkN hg
    obtain ⟨hRklen, hRkii, hRkwp, hRkacc⟩ := hrows k le_rfl hkN'
    have hindlt : c.insertindex.getD k 0 < c.p := by
      rw [hRkii]; exact Nat.mod_lt _ hp
    set c4 := preCascade c w k with hc4
    clear_value c4
    -- row-k facts of the pre-cascade state
    have hc4shiftrow : c4.shift.getD k [] =
        (c.shift.getD k []).set (c.insertindex.getD k 0) w := by
      rw [hc4, preCascade_shift, getD_set_self _ _ _ _ (by omega)]
    have hc4rowlen : (c4.shift.getD k []).length = c.p := by
      rw [hc4shiftrow, List.length_set, hRklen]
    have hc4nwk : c4.nwritten.getD k 0 = c.nwritten.getD k 0 + 1 := by
      rw [hc4, preCascade_nwritten, getD_set_self _ _ _ _ (by omega)]
    have hc4iik : c4.insertindex.getD k 0 = c.insertindex.getD k 0 := by
      rw [hc4, preCascade_insertindex]
    have hc4wp : ∀ i, i < c.p →
        (i < c.nwritten.getD k 0 + 1 →
          threshold < (c4.shift.getD k []).getD i sentinel) ∧
        (c.nwritten.getD k 0 + 1 ≤ i →
          (c4.shift.getD k []).getD i sentinel = sentinel) := by
      rw [hc4shiftrow, hRkii]
      exact writtenPrefix_step (c.shift.getD k []) c.p (c.nwritten.getD k 0) w
        hp hRklen hw (fun i hi => hRkwp i hi)
    have hc4len : c4.shift.length = c4.numcorrelators ∧
        c4.insertindex.length = c4.numcorrelators ∧
        c4.nwritten.length = c4.numcorrelators ∧
        c4.accumulator.length = c4.numcorrelators ∧
        c4.naccumulator.length = c4.numcorrelators := by
      rw [hc4]
      simp only [preCascade_numcorrelators, preCascade_shift,
        preCascade_insertindex, preCascade_nwritten, preCascade_accumulator,
        preCascade_naccumulator, List.length_set]
      exact ⟨hLsh, hLii, hLnw, hLacc, hLnacc⟩
    have hc4rows : ∀ j, k + 1 ≤ j → j < c4.numcorrelators → RowInv c4 j := by
      intro j hj1 hj2
      rw [hc4, preCascade_numcorrelators] at hj2
      apply RowInv_transfer _ c j (by rw [hc4, preCascade_p])
      · rw [hc4, preCascade_shift, getD_set_ne _ _ _ (by omega)]
      · rw [hc4, preCascade_insertindex]
      · rw [hc4, preCascade_nwritten, getD_set_ne _ _ _ (by omega)]
      · rw [hc4, preCascade_accumulator, getD_set_ne _ _ _ (by omega)]
      · rw [hc4, preCascade_naccumulator, getD_set_ne _ _ _ (by omega)]
      · exact hrows j (Nat.le_of_succ_le hj1) hj2
    rw [addFuel_succ, addFuel_succ, if_neg hg, if_neg hg, ← hc4]
    by_cases hc : c.naccumulator.getD k 0 + 1 = c.m
    · -- cascade branch
      rw [if_pos hc, if_pos hc]
      have hm : 0 < c.m := by omega
      have hmQ : (0 : ℚ) < (c.m : ℚ) := by exact_mod_cast hm
      have hwcasc : threshold < (c.accumulator.getD k 0 + w) / (c.m : ℚ) := by
        have h2 : ((c.naccumulator.getD k 0 : ℚ) + 1) = (c.m : ℚ) := by
          exact_mod_cast congrArg (fun x : Nat => (x : ℚ)) hc
        rw [lt_div_iff hmQ, ← h2]
        have hexp : threshold * ((c.naccumulator.getD k 0 : ℚ) + 1) =
            (c.naccumulator.getD k 0 : ℚ) * threshold + threshold := by ring
        rw [hexp]
        have := hRkacc
        linarith [hw]
      have hih := ih c4 ((c.accumulator.getD k 0 + w) / (c.m : ℚ)) (k + 1)
        (by rw [hc4, preCascade_p]; exact hp)
        (by rw [hc4, preCascade_p, preCascade_d_min]; exact hd)
        hc4len.1 hc4len.2.1 hc4len.2.2.1 hc4len.2.2.2.1 hc4len.2.2.2.2
        (by rw [hc4, preCascade_numcorrelators]; omega)
        hc4rows hwcasc
      set Ms := addFuel sentinelTC n c4
        ((c.accumulator.getD k 0 + w) / (c.m : ℚ)) (k + 1) with hMs
      clear_value Ms
      rw [← hih.1]
      have hMsEB := addFuel_eqBelow sentinelTC n c4
        ((c.accumulator.getD k 0 + w) / (c.m : ℚ)) (k + 1) k
        (Nat.lt_succ_self k)
      have hMsSS := addFuel_sameShapes sentinelTC n c4
        ((c.accumulator.getD k 0 + w) / (c.m : ℚ)) (k + 1)
      rw [← hMs] at hMsEB hMsSS
      set c5 := postCascade k Ms with hc5
      clear_value c5
      -- row-k facts of the post-cascade state
      have hc5p : c5.p = c.p := by
        rw [hc5, postCascade_p, hMs, addFuel_p, hc4, preCascade_p]
      have hc5d : c5.d_min = c.d_min := by
        rw [hc5, postCascade_d_min, hMs, addFuel_d_min, hc4, preCascade_d_min]
      have hc5shiftrow : c5.shift.getD k [] = c4.shift.getD k [] := by
        rw [hc5, postCascade_shift, hMsEB.1]
      have hc5iik : c5.insertindex.getD k 0 = c.insertindex.getD k 0 := by
        rw [hc5, postCascade_insertindex, hMsEB.2.2.2.2.2.1, hc4iik]
      have hc5nwk : c5.nwritten.getD k 0 = c.nwritten.getD k 0 + 1 := by
        rw [hc5, postCascade_nwritten, hMsEB.2.2.2.2.2.2, hc4nwk]
      have htests : ∀ s, s < c5.p →
          sentinelTC (c5.shift.getD k []) (c5.nwritten.getD k 0) s =
          writtenTC (c5.shift.getD k []) (c5.nwritten.getD k 0) s := by
        intro s hs
        rw [hc5p] at hs
        unfold sentinelTC writtenTC
        rw [decide_eq_decide, hc5shiftrow, hc5nwk]
        constructor
        · intro hgt
          by_contra hnot
          rw [(hc4wp s hs).2 (by omega)] at hgt
          exact sentinel_le_threshold hgt
        · intro hlt
          exact (hc4wp s hs).1 hlt
      have hPair := corrPair_congr sentinelTC writtenTC k c5
        (by rw [hc5p]; exact hp)
        (by rw [hc5p, hc5d]; exact hd)
        (by rw [hc5iik, hc5p]; exact hindlt)
        htests
      refine ⟨corrPhase_congr sentinelTC writtenTC k c5 hPair, ?_⟩
      intro j hj1 hj2
      rcases Nat.lt_or_ge j (k + 1) with hjk | hjk
      · have hjeq : j = k := by omega
        rw [hjeq]
        refine ⟨?_, ?_, ?_, ?_⟩
        · rw [corrPhase_shift, hc5shiftrow, hc4rowlen, corrPhase_p, hc5p]
        · rw [corrPhase_insertindex, corrPhase_nwritten, corrPhase_p]
          have hiilen : k < c5.insertindex.length := by
            rw [hc5, postCascade_insertindex, hMsSS.2.2.2.2.2.1,
              hc4len.2.1, hc4, preCascade_numcorrelators]
            exact hkN'
          rw [getD_set_self _ _ _ _ hiilen, hc5nwk, hc5iik, hc5p, hRkii]
          rw [succ_mod_eq (c.nwritten.getD k 0) c.p hp]
        · intro i hi
          rw [corrPhase_p, hc5p] at hi
          rw [corrPhase_shift, corrPhase_nwritten, hc5shiftrow, hc5nwk]
          exact hc4wp i hi
        · rw [corrPhase_accumulator, corrPhase_naccumulator, hc5,
            postCascade_accumulator, postCascade_naccumulator]
          have hacclen : k < Ms.accumulator.length := by
            rw [hMsSS.2.2.2.1, hc4len.2.2.2.1, hc4, preCascade_numcorrelators]
            exact hkN'
          have hnacclen : k < Ms.naccumulator.length := by
            rw [hMsSS.2.2.2.2.1, hc4len.2.2.2.2, hc4, preCascade_numcorrelators]
            exact hkN'
          rw [getD_set_self _ _ _ _ hacclen, getD_set_self _ _ _ _ hnacclen]
          norm_num
      · have hMsrow := hih.2 j hjk
          (by rw [hc4, preCascade_numcorrelators]; exact hj2)
        apply RowInv_transfer _ Ms j (by rw [corrPhase_p, hc5, postCascade_p])
        · rw [corrPhase_shift, hc5, postCascade_shift]
        · rw [corrPhase_insertindex, getD_set_ne _ _ _ (by omega), hc5,
            postCascade_insertindex]
        · rw [corrPhase_nwritten, hc5, postCascade_nwritten]
        · rw [corrPhase_accumulator, hc5, postCascade_accumulator,
            getD_set_ne _ _ _ (by omega)]
        · rw [corrPhase_naccumulator, hc5, postCascade_naccumulator,
            getD_set_ne _ _ _ (by omega)]
        · exact hMsrow
    · -- no cascade
      rw [if_neg hc, if_neg hc]
      have htests : ∀ s, s < c4.p →
          sentinelTC (c4.shift.getD k []) (c4.nwritten.getD k 0) s =
          writtenTC (c4.shift.getD k []) (c4.nwritten.getD k 0) s := by
        intro s hs
        rw [hc4, preCascade_p] at hs
        unfold sentinelTC writtenTC
        rw [decide_eq_decide, hc4nwk]
        constructor
        · intro hgt
          by_contra hnot
          rw [(hc4wp s hs).2 (by omega)] at hgt
          exact sentinel_le_threshold hgt
        · intro hlt
          exact (hc4wp s hs).1 hlt
      have hPair := corrPair_congr sentinelTC writtenTC k c4
        (by rw [hc4, preCascade_p]; exact hp)
        (by rw [hc4, preCascade_p, preCascade_d_min]; exact hd)
        (by rw [hc4iik, hc4, preCascade_p]; exact hindlt)
        htests
      refine ⟨corrPhase_congr sentinelTC writtenTC k c4 hPair, ?_⟩
      intro j hj1 hj2
      rcases Nat.lt_or_ge j (k + 1) with hjk | hjk
      · have hjeq : j = k := by omega
        rw [hjeq]
        refine ⟨?_, ?_, ?_, ?_⟩
        · rw [corrPhase_shift, hc4rowlen, corrPhase_p, hc4, preCascade_p]
        · rw [corrPhase_insertindex, corrPhase_nwritten, corrPhase_p]
          have hiilen : k < c4.insertindex.length := by
            rw [hc4len.2.1, hc4, preCascade_numcorrelators]
            exact hkN'
          rw [getD_set_self _ _ _ _ hiilen, hc4nwk, hc4iik, hc4,
            preCascade_p, hRkii]
          rw [succ_mod_eq (c.nwritten.getD k 0) c.p hp]
        · intro i hi
          rw [corrPhase_p, hc4, preCascade_p] at hi
          rw [corrPhase_shift, corrPhase_nwritten, hc4nwk]
          exact hc4wp i hi
        · rw [corrPhase_accumulator, corrPhase_naccumulator, hc4,
            preCascade_accumulator, preCascade_naccumulator]
          have hacclen : k < c.accumulator.length := by
            rw [hLacc]; exact hkN'
          have hnacclen : k < c.naccumulator.length := by
            rw [hLnacc]; exact hkN'
          rw [getD_set_self _ _ _ _ hacclen, getD_set_self _ _ _ _ hnacclen]
          push_cast
          have hexp : ((c.naccumulator.getD k 0 : ℚ) + 1) * threshold =
              (c.naccumulator.getD k 0 : ℚ) * threshold + threshold := by ring
          rw [hexp]
          linarith [hw, hRkacc]
      · apply RowInv_transfer _ c j (by rw [corrPhase_p, hc4, preCascade_p])
        · rw [corrPhase_shift, hc4, preCascade_shift,
            getD_set_ne _ _ _ (by omega)]
        · rw [corrPhase_insertindex, getD_set_ne _ _ _ (by omega), hc4,
            preCascade_insertindex]
        · rw [corrPhase_nwritten, hc4, preCascade_nwritten,
            getD_set_ne _ _ _ (by omega)]
        · rw [corrPhase_accumulator, hc4, preCascade_accumulator,
            getD_set_ne _ _ _ (by omega)]
        · rw [corrPhase_naccumulator, hc4, preCascade_naccumulator,
            getD_set_ne _ _ _ (by omega)]
        · exact hrows j (Nat.le_of_succ_le hjk) hj2

/-- Well-formedness carried along a level-0 feed: positive window length,
`d_min ≤ p`, constructed array lengths, and the row invariant at every
level. -/
def FeedInv (c : Correlator_Likh) : Prop :=
  0 < c.p ∧ c.d_min ≤ c.p ∧
  c.shift.length = c.numcorrelators ∧
  c.insertindex.length = c.numcorrelators ∧
  c.nwritten.length = c.numcorrelators ∧
  c.accumulator.length = c.numcorrelators ∧
  c.naccumulator.length = c.numcorrelators ∧
  (∀ j, j < c.numcorrelators → RowInv c j)

theorem initState_feedInv (N p m : Nat) (hp : 0 < p) :
    FeedInv (initState N p m) := by
  refine ⟨hp, Nat.div_le_self p m, ?_, ?_, ?_, ?_, ?_, ?_⟩
  · simp [initState]
  · simp [initState]
  · simp [initState]
  · simp [initState]
  · simp [initState]
  · intro j hj
    have hj' : j < N := hj
    refine ⟨?_, ?_, ?_, ?_⟩
    · simp [initState, getD_replicate, hj']
    · simp [initState, getD_replicate, hj', Nat.zero_mod]
    · intro i hi
      constructor
      · intro hlt
        simp [initState, getD_replicate, hj'] at hlt
      · intro _
        have hi' : i < p := hi
        simp [initState, getD_replicate, hj', hi']
    · simp [initState, getD_replicate, hj']

theorem add0_tc_eq (c : Correlator_Likh) (w : ℚ) (hF : FeedInv c)
    (hw : threshold < w) :
    c.add w 0 = c.addTrue w 0 ∧ FeedInv (c.add w 0) := by
  obtain ⟨hp, hd, h1, h2, h3, h4, h5, hrows⟩ := hF
  have h := addFuel_tc_eq (c.numcorrelators + 1) c w 0 hp hd h1 h2 h3 h4 h5
    (Nat.zero_le _) (fun j _ hj => hrows j hj) hw
  have hSS := addFuel_sameShapes sentinelTC (c.numcorrelators + 1) c w 0
  refine ⟨h.1, ?_⟩
  rw [add_def]
  refine ⟨?_, ?_, ?_, ?_, ?_, ?_, ?_, ?_⟩
  · rw [addFuel_p]; exact hp
  · rw [addFuel_p, addFuel_d_min]; exact hd
  · rw [addFuel_numcorrelators, hSS.1]; exact h1
  · rw [addFuel_numcorrelators, hSS.2.2.2.2.2.1]; exact h2
  · rw [addFuel_numcorrelators, hSS.2.2.2.2.2.2.1]; exact h3
  · rw [addFuel_numcorrelators, hSS.2.2.2.1]; exact h4
  · rw [addFuel_numcorrelators, hSS.2.2.2.2.1]; exact h5
  · intro j hj
    rw [addFuel_numcorrelators] at hj
    exact h.2 j (Nat.zero_le j) hj

theorem feed_eq_feedTrue (ws : List ℚ) :
    ∀ c : Correlator_Likh, FeedInv c → (∀ w ∈ ws, threshold < w) →
      c.feed ws = c.feedTrue ws ∧ FeedInv (c.feed ws) := by
  induction ws with
  | nil => intro c hF _; exact ⟨rfl, hF⟩
  | cons w ws ih =>
    intro c hF hws
    have hw : threshold < w := hws w (List.mem_cons_self w ws)
    have hstep := add0_tc_eq c w hF hw
    have hrest := ih (c.add w 0) hstep.2
      (fun x hx => hws x (List.mem_cons_of_mem w hx))
    constructor
    · show (c.add w 0).feed ws = (c.addTrue w 0).feedTrue ws
      rw [← hstep.1]
      exact hrest.1
    · exact hrest.2

/-- **C6 counterexample**: the claim fails for input values at or below
the validity threshold `-1e10`.  Feeding the single "real" value `-2e10`
(numerically equal to the sentinel) into a fresh engine leaves
`ncorrelation[0][0] = 0`, although the lag-0 product pairs the just-written
sample with itself — both factors are real data actually written into the
buffer, so the claimed count (computed by the written-slot variant
`feedTrue`) is 1. -/
theorem C6_sentinel_input_counterexample :
    ((initState 1 2 2).feed [sentinel]).ncorrelation ≠
      ((initState 1 2 2).feedTrue [sentinel]).ncorrelation := by
  decide

/-- **C6 (amended)**: for every input sequence whose values are above the
validity threshold `-1e10`, the engine run with the source's
sentinel-threshold test is state-for-state equal to the run with the
claims' "slot actually written" test; in particular `ncorrelation[k][i]`
equals, at every level and lag, the number of product terms whose two
factors were real data actually written into the buffer. -/
theorem C6_counts_valid_pairs (N p m : Nat) (ws : List ℚ) (hp : 0 < p)
    (hws : ∀ w ∈ ws, threshold < w) :
    (initState N p m).feed ws = (initState N p m).feedTrue ws :=
  (feed_eq_feedTrue ws (initState N p m) (initState_feedInv N p m hp) hws).1

theorem C6_counts_valid_pairs_witness :
    (initState 2 2 2).feed [1, 2] = (initState 2 2 2).feedTrue [1, 2] :=
  C6_counts_valid_pairs 2 2 2 [1, 2] (by decide) (by decide)

/-! ## Claim C2: lag coverage for `p = 16, m = 2` -/

set_option maxRecDepth 1000000 in
/-- **C2 counterexample**: "level 1, once it has been reached by the
cascade, emits lags 8..15 scaled by 2" is false as stated.  After exactly
two samples, level 1 has been reached (`kmax = 1`, one value inserted at
level 1), yet `evaluate` emits only the two level-0 pairs with lags 0 and
1 and nothing from level 1, because the level loop runs `k < kmax` (so a
level is emitted only once the cascade has reached the level above it)
and level 1's lag counts are still zero. -/
theorem C2_reached_level_not_emitted :
    ((initState 4 16 2).feed [1, 1]).kmax = 1 ∧
    ((initState 4 16 2).feed [1, 1]).nwritten.getD 1 0 = 1 ∧
    (((initState 4 16 2).feed [1, 1]).evaluate false).npcorr = 2 ∧
    (((initState 4 16 2).feed [1, 1]).evaluate false).t.take 2 = [0, 1] := by
  decide

set_option maxRecDepth 1000000 in
/-- **C2 (amended)**: with `p = 16, m = 2` (4 levels here), after 64
constant samples — enough for the cascade to pass level 2 and for every
retained lag slot of levels 1 and 2 to have filled — `evaluate` emits
exactly: level 0's lags `0..15`, level 1's lags `8..15` scaled by `2`
(actual lags `16, 18, …, 30`), and level 2's lags `8..15` scaled by `4`
(actual lags `32, 36, …, 60`); `npcorr = 32`.  (A level emits only while
`kmax` exceeds it and its lag counts are positive — see the
counterexample for the "once reached" reading.) -/
theorem C2_lag_coverage_after_64 :
    ((((initState 4 16 2).feed (List.replicate 64 1)).evaluate false).npcorr = 32) ∧
    ((((initState 4 16 2).feed (List.replicate 64 1)).evaluate false).t.take 32 =
      [0, 1, 2, 3, 4, 5, 6, 7, 8, 9, 10, 11, 12, 13, 14, 15,
       16, 18, 20, 22, 24, 26, 28, 30, 32, 36, 40, 44, 48, 52, 56, 60]) := by
  have hfeq : (initState 4 16 2).feed (List.replicate 64 1) =
      (initState 4 16 2).feedTrue (List.replicate 64 1) :=
    (feed_eq_feedTrue (List.replicate 64 1) (initState 4 16 2)
      (initState_feedInv 4 16 2 (by decide))
      (by
        intro w hw
        rw [List.eq_of_mem_replicate hw]
        decide)).1
  have hfacts : ((initState 4 16 2).feedTrue (List.replicate 64 1)).p = 16 ∧
      ((initState 4 16 2).feedTrue (List.replicate 64 1)).d_min = 8 ∧
      ((initState 4 16 2).feedTrue (List.replicate 64 1)).m = 2 ∧
      ((initState 4 16 2).feedTrue (List.replicate 64 1)).kmax = 3 ∧
      ((initState 4 16 2).feedTrue (List.replicate 64 1)).ncorrelation =
        [[64, 63, 62, 61, 60, 59, 58, 57, 56, 55, 54, 53, 52, 51, 50, 49],
         [0, 0, 0, 0, 0, 0, 0, 0, 24, 23, 22, 21, 20, 19, 18, 17],
         [0, 0, 0, 0, 0, 0, 0, 0, 8, 7, 6, 5, 4, 3, 2, 1],
         [0, 0, 0, 0, 0, 0, 0, 0, 0, 0, 0, 0, 0, 0, 0, 0]] ∧
      ((initState 4 16 2).feedTrue (List.replicate 64 1)).t =
        List.replicate 64 0 := by
    refine ⟨by decide, by decide, by decide, by decide, by decide, by decide⟩
  obtain ⟨hp, hd, hm, hk, hnc, ht⟩ := hfacts
  have hr16 : List.range 16 = [0,1,2,3,4,5,6,7,8,9,10,11,12,13,14,15] := rfl
  have hr2 : List.range' 1 (3 - 1) = [1, 2] := rfl
  have hr8 : List.range' 8 (16 - 8) = [8,9,10,11,12,13,14,15] := rfl
  have hfst : (((initState 4 16 2).feedTrue (List.replicate 64 1)).evalPairs
      false).map Prod.fst =
      ([0, 1, 2, 3, 4, 5, 6, 7, 8, 9, 10, 11, 12, 13, 14, 15,
        16, 18, 20, 22, 24, 26, 28, 30, 32, 36, 40, 44, 48, 52, 56, 60] : List ℚ) := by
    unfold evalPairs
    rw [hp, hd, hm, hk, hnc, hr16, hr2, hr8]
    norm_num [List.filterMap_cons, List.flatMap_cons, List.flatMap_nil]
  constructor
  · rw [hfeq, evaluate_eq_overlay]
    show (((initState 4 16 2).feedTrue (List.replicate 64 1)).evalPairs false).length = 32
    have := congrArg List.length hfst
    rw [List.length_map] at this
    rw [this]
    rfl
  · rw [hfeq, evaluate_eq_overlay]
    show (overlay ((initState 4 16 2).feedTrue (List.replicate 64 1)).t 0
      ((((initState 4 16 2).feedTrue (List.replicate 64 1)).evalPairs false).map Prod.fst)).take 32 = _
    rw [hfst, ht]
    decide

/-! ## Claim C5: constant signal -/

/-- Structural well-formedness used by the constant-signal argument:
positive window, `d_min ≤ p`, constructed list lengths, and
`correlation`/`ncorrelation` rows of length `p`. -/
def WfC (c : Correlator_Likh) : Prop :=
  0 < c.p ∧ c.d_min ≤ c.p ∧
  c.shift.length = c.numcorrelators ∧
  c.correlation.length = c.numcorrelators ∧
  c.ncorrelation.length = c.numcorrelators ∧
  c.insertindex.length = c.numcorrelators ∧
  c.nwritten.length = c.numcorrelators ∧
  c.accumulator.length = c.numcorrelators ∧
  c.naccumulator.length = c.numcorrelators ∧
  (∀ j, j < c.numcorrelators →
    (c.shift.getD j []).length = c.p ∧
    (c.correlation.getD j []).length = c.p ∧
    (c.ncorrelation.getD j []).length = c.p)

theorem initState_wfC (N p m : Nat) (hp : 0 < p) :
    WfC (initState N p m) := by
  refine ⟨hp, Nat.div_le_self p m, by simp [initState], by simp [initState],
    by simp [initState], by simp [initState], by simp [initState],
    by simp [initState], by simp [initState], ?_⟩
  intro j hj
  have hj' : j < N := hj
  refine ⟨?_, ?_, ?_⟩ <;> simp [initState, List.getElem?_replicate, hj']

theorem addFuel_wfC (tc fuel c w k) (h : WfC c) :
    WfC (addFuel tc fuel c w k) := by
  obtain ⟨h1, h2, h3, h4, h5, h6, h7, h8, h9, h10⟩ := h
  have hSS := addFuel_sameShapes tc fuel c w k
  refine ⟨?_, ?_, ?_, ?_, ?_, ?_, ?_, ?_, ?_, ?_⟩
  · rw [addFuel_p]; exact h1
  · rw [addFuel_p, addFuel_d_min]; exact h2
  · rw [addFuel_numcorrelators, hSS.1]; exact h3
  · rw [addFuel_numcorrelators, hSS.2.1]; exact h4
  · rw [addFuel_numcorrelators, hSS.2.2.1]; exact h5
  · rw [addFuel_numcorrelators, hSS.2.2.2.2.2.1]; exact h6
  · rw [addFuel_numcorrelators, hSS.2.2.2.2.2.2.1]; exact h7
  · rw [addFuel_numcorrelators, hSS.2.2.2.1]; exact h8
  · rw [addFuel_numcorrelators, hSS.2.2.2.2.1]; exact h9
  · intro j hj
    rw [addFuel_numcorrelators] at hj
    rw [addFuel_p]
    refine ⟨?_, ?_, ?_⟩
    · rw [hSS.2.2.2.2.2.2.2.1 j]; exact (h10 j hj).1
    · rw [hSS.2.2.2.2.2.2.2.2.1 j]; exact (h10 j hj).2.1
    · rw [hSS.2.2.2.2.2.2.2.2.2 j]; exact (h10 j hj).2.2

/-- Value facts maintained by a constant signal `x`: every buffer slot
holds the sentinel or `x`, `correlation = ncorrelation · x²` pointwise,
and every pending group sum is `naccumulator · x`. -/
def ConstVals (x : ℚ) (c : Correlator_Likh) : Prop :=
  (∀ k i, (c.shift.getD k []).getD i sentinel = sentinel ∨
    (c.shift.getD k []).getD i sentinel = x) ∧
  (∀ k i, (c.correlation.getD k []).getD i 0 =
    ((c.ncorrelation.getD k []).getD i 0 : ℚ) * (x * x)) ∧
  (∀ k, c.accumulator.getD k 0 = (c.naccumulator.getD k 0 : ℚ) * x)

theorem initState_constVals (N p m : Nat) (x : ℚ) :
    ConstVals x (initState N p m) := by
  refine ⟨?_, ?_, ?_⟩
  · intro k i
    left
    rcases Nat.lt_or_ge k N with hk | hk
    · rcases Nat.lt_or_ge i p with hi | hi <;>
        simp [initState, List.getElem?_replicate, hk, hi, Nat.not_lt.mpr]
    · simp [initState, List.getElem?_replicate, Nat.not_lt.mpr hk]
  · intro k i
    rcases Nat.lt_or_ge k N with hk | hk
    · rcases Nat.lt_or_ge i p with hi | hi <;>
        simp [initState, List.getElem?_replicate, hk, hi, Nat.not_lt.mpr]
    · simp [initState, List.getElem?_replicate, Nat.not_lt.mpr hk]
  · intro k
    rcases Nat.lt_or_ge k N with hk | hk <;>
      simp [initState, List.getElem?_replicate, hk, Nat.not_lt.mpr]

/-- One correlation-loop step on a constant-valued row: if the current
sample slot holds `x` and every slot holds the sentinel or `x`, the
pointwise relation `correlation = ncorrelation · x²` survives (the
sentinel never passes the validity test). -/
theorem corrStep_const (row : List ℚ) (nw ind1 : Nat) (x : ℚ)
    (hind1 : row.getD ind1 sentinel = x)
    (hvals : ∀ s, row.getD s sentinel = sentinel ∨ row.getD s sentinel = x)
    (st : List ℚ × List Nat) (j : Nat) (i2 : Int)
    (hrel : ∀ j', st.1.getD j' 0 = (st.2.getD j' 0 : ℚ) * (x * x))
    (hlen : st.1.length = st.2.length) :
    (∀ j', (corrStep row (sentinelTC row nw) ind1 st j i2).1.getD j' 0 =
      (((corrStep row (sentinelTC row nw) ind1 st j i2).2.getD j' 0 : ℚ)) *
        (x * x)) ∧
    (corrStep row (sentinelTC row nw) ind1 st j i2).1.length =
      (corrStep row (sentinelTC row nw) ind1 st j i2).2.length := by
  unfold corrStep
  by_cases ht : sentinelTC row nw i2.toNat
  · rw [if_pos ht]
    have hx2 : row.getD i2.toNat sentinel = x := by
      rcases hvals i2.toNat with h | h
      · exfalso
        unfold sentinelTC at ht
        rw [h] at ht
        exact sentinel_le_threshold (of_decide_eq_true ht)
      · exact h
    refine ⟨?_, by simp [hlen]⟩
    intro j'
    rw [hind1, hx2]
    by_cases hj' : j = j'
    · subst hj'
      rcases Nat.lt_or_ge j st.1.length with hl | hl
      · rw [getD_set_self _ _ _ _ hl, getD_set_self _ _ _ _ (hlen ▸ hl)]
        rw [hrel j]
        push_cast
        ring
      · rw [List.set_eq_of_length_le hl,
          List.set_eq_of_length_le (hlen ▸ hl)]
        exact hrel j
    · rw [getD_set_ne _ _ _ hj', getD_set_ne _ _ _ hj']
      exact hrel j'
  · rw [if_neg ht]
    exact ⟨hrel, hlen⟩

theorem fold0_const (p : Nat) (row : List ℚ) (nw ind1 : Nat) (x : ℚ)
    (hind1 : row.getD ind1 sentinel = x)
    (hvals : ∀ s, row.getD s sentinel = sentinel ∨ row.getD s sentinel = x)
    (js : List Nat) :
    ∀ st : Int × List ℚ × List Nat,
      (∀ j', st.2.1.getD j' 0 = (st.2.2.getD j' 0 : ℚ) * (x * x)) →
      st.2.1.length = st.2.2.length →
      (∀ j', (js.foldl (loopStep0 p row (sentinelTC row nw) ind1) st).2.1.getD
          j' 0 =
        (((js.foldl (loopStep0 p row (sentinelTC row nw) ind1) st).2.2.getD
          j' 0 : ℚ)) * (x * x)) ∧
      (js.foldl (loopStep0 p row (sentinelTC row nw) ind1) st).2.1.length =
        (js.foldl (loopStep0 p row (sentinelTC row nw) ind1) st).2.2.length := by
  induction js with
  | nil => intro st h1 h2; exact ⟨h1, h2⟩
  | cons j js ih =>
    intro st h1 h2
    rw [List.foldl_cons]
    have hstep := corrStep_const row nw ind1 x hind1 hvals st.2 j st.1 h1 h2
    exact ih _ hstep.1 hstep.2

theorem foldK_const (p : Nat) (row : List ℚ) (nw ind1 : Nat) (x : ℚ)
    (hind1 : row.getD ind1 sentinel = x)
    (hvals : ∀ s, row.getD s sentinel = sentinel ∨ row.getD s sentinel = x)
    (js : List Nat) :
    ∀ st : Int × List ℚ × List Nat,
      (∀ j', st.2.1.getD j' 0 = (st.2.2.getD j' 0 : ℚ) * (x * x)) →
      st.2.1.length = st.2.2.length →
      (∀ j', (js.foldl (loopStepK p row (sentinelTC row nw) ind1) st).2.1.getD
          j' 0 =
        (((js.foldl (loopStepK p row (sentinelTC row nw) ind1) st).2.2.getD
          j' 0 : ℚ)) * (x * x)) ∧
      (js.foldl (loopStepK p row (sentinelTC row nw) ind1) st).2.1.length =
        (js.foldl (loopStepK p row (sentinelTC row nw) ind1) st).2.2.length := by
  induction js with
  | nil => intro st h1 h2; exact ⟨h1, h2⟩
  | cons j js ih =>
    intro st h1 h2
    rw [List.foldl_cons]
    have hstep := corrStep_const row nw ind1 x hind1 hvals st.2 j
      (if st.1 < 0 then st.1 + (p : Int) else st.1) h1 h2
    exact ih _ hstep.1 hstep.2

theorem corrPair_const (k : Nat) (c : Correlator_Likh) (x : ℚ)
    (hind1 : (c.shift.getD k []).getD (c.insertindex.getD k 0) sentinel = x)
    (hvals : ∀ s, (c.shift.getD k []).getD s sentinel = sentinel ∨
      (c.shift.getD k []).getD s sentinel = x)
    (hrel : ∀ j', (c.correlation.getD k []).getD j' 0 =
      ((c.ncorrelation.getD k []).getD j' 0 : ℚ) * (x * x))
    (hlen : (c.correlation.getD k []).length =
      (c.ncorrelation.getD k []).length) :
    (∀ j', (corrPair sentinelTC k c).1.getD j' 0 =
      ((corrPair sentinelTC k c).2.getD j' 0 : ℚ) * (x * x)) ∧
    (corrPair sentinelTC k c).1.length = (corrPair sentinelTC k c).2.length := by
  unfold corrPair corrLoop0 corrLoopK
  dsimp only
  split
  · exact fold0_const c.p _ _ _ x hind1 hvals (List.range c.p) _ hrel hlen
  · exact foldK_const c.p _ _ _ x hind1 hvals
      (List.range' c.d_min (c.p - c.d_min)) _ hrel hlen

theorem set_getD_self_eq {α : Type _} : ∀ (l : List α) (k : Nat) (d : α),
    l.set k (l.getD k d) = l := by
  intro l
  induction l with
  | nil => intro k d; rfl
  | cons a t ih =>
    intro k d
    cases k with
    | zero => rfl
    | succ q =>
      show a :: t.set q ((a :: t).getD (q + 1) d) = a :: t
      rw [List.getD_cons_succ, ih]

/-- When the validity test rejects every slot, a correlation-loop step is a
no-op. -/
theorem corrStep_false (row : List ℚ) (test : Nat → Bool) (ind1 : Nat)
    (st : List ℚ × List Nat) (j : Nat) (i2 : Int)
    (h : ∀ s, test s = false) :
    corrStep row test ind1 st j i2 = st := by
  simp [corrStep, h]

theorem fold0_false (p : Nat) (row : List ℚ) (test : Nat → Bool) (ind1 : Nat)
    (h : ∀ s, test s = false) (js : List Nat) :
    ∀ st : Int × List ℚ × List Nat,
      (js.foldl (loopStep0 p row test ind1) st).2 = st.2 := by
  induction js with
  | nil => intro st; rfl
  | cons j js ih =>
    intro st
    rw [List.foldl_cons, ih]
    show (loopStep0 p row test ind1 st j).2 = st.2
    unfold loopStep0
    dsimp only
    rw [corrStep_false row test ind1 st.2 j st.1 h]

theorem foldK_false (p : Nat) (row : List ℚ) (test : Nat → Bool) (ind1 : Nat)
    (h : ∀ s, test s = false) (js : List Nat) :
    ∀ st : Int × List ℚ × List Nat,
      (js.foldl (loopStepK p row test ind1) st).2 = st.2 := by
  induction js with
  | nil => intro st; rfl
  | cons j js ih =>
    intro st
    rw [List.foldl_cons, ih]
    show (loopStepK p row test ind1 st j).2 = st.2
    unfold loopStepK
    dsimp only
    rw [corrStep_false row test ind1 st.2 j
      (if st.1 < 0 then st.1 + (p : Int) else st.1) h]

/-- Feeding the constant `x` (at any level, hence also for all cascaded
averages, which stay equal to `x`) preserves `ConstVals x`; moreover, when
`x` is at or below the validity threshold, no correlation count or sum is
ever touched. -/
theorem addFuel_constVals :
    ∀ (fuel : Nat) (c : Correlator_Likh) (x : ℚ) (k : Nat),
      0 < c.p →
      c.shift.length = c.numcorrelators →
      c.correlation.length = c.ncorrelation.length →
      c.accumulator.length = c.naccumulator.length →
      (∀ j, j < c.numcorrelators →
        (c.correlation.getD j []).length = (c.ncorrelation.getD j []).length) →
      (∀ j, k ≤ j → j < c.numcorrelators →
        (c.shift.getD j []).length = c.p ∧ c.insertindex.getD j 0 < c.p) →
      k ≤ c.numcorrelators →
      ConstVals x c →
      ConstVals x (addFuel sentinelTC fuel c x k) ∧
      (x ≤ threshold →
        (addFuel sentinelTC fuel c x k).ncorrelation = c.ncorrelation ∧
        (addFuel sentinelTC fuel c x k).correlation = c.correlation) := by
  intro fuel
  induction fuel with
  | zero => intro c x k _ _ _ _ _ _ _ hCV; exact ⟨hCV, fun _ => ⟨rfl, rfl⟩⟩
  | succ n ih =>
    intro c x k hp hshlen hcnlen hanlen hcnrow hrowsk hkN hCV
    obtain ⟨hB, hC, hD⟩ := hCV
    by_cases hg : k = c.numcorrelators
    · rw [addFuel_succ, if_pos hg]
      exact ⟨⟨hB, hC, hD⟩, fun _ => ⟨rfl, rfl⟩⟩
    have hkN' : k < c.numcorrelators := Nat.lt_of_le_of_ne hkN hg
    obtain ⟨hRlen, hRind⟩ := hrowsk k le_rfl hkN'
    set c4 := preCascade c x k with hc4
    clear_value c4
    have hc4shiftrow : c4.shift.getD k [] =
        (c.shift.getD k []).set (c.insertindex.getD k 0) x := by
      rw [hc4, preCascade_shift, getD_set_self _ _ _ _ (by omega)]
    -- `ConstVals` facts of the pre-cascade state
    have hB4 : ∀ k' i, (c4.shift.getD k' []).getD i sentinel = sentinel ∨
        (c4.shift.getD k' []).getD i sentinel = x := by
      intro k' i
      by_cases hk' : k = k'
      · subst hk'
        rw [hc4shiftrow]
        by_cases hieq : c.insertindex.getD k 0 = i
        · subst hieq
          rw [getD_set_self _ _ _ _ (by omega)]
          right; rfl
        · rw [getD_set_ne _ _ _ hieq]
          exact hB k i
      · rw [hc4, preCascade_shift, getD_set_ne _ _ _ hk']
        exact hB k' i
    have hC4 : ∀ k' i, (c4.correlation.getD k' []).getD i 0 =
        ((c4.ncorrelation.getD k' []).getD i 0 : ℚ) * (x * x) := by
      intro k' i
      rw [hc4, preCascade_correlation, preCascade_ncorrelation]
      exact hC k' i
    have hD4 : ∀ k', c4.accumulator.getD k' 0 =
        (c4.naccumulator.getD k' 0 : ℚ) * x := by
      intro k'
      rw [hc4, preCascade_accumulator, preCascade_naccumulator]
      by_cases hk' : k = k'
      · subst hk'
        rcases Nat.lt_or_ge k c.accumulator.length with hl | hl
        · rw [getD_set_self _ _ _ _ hl, getD_set_self _ _ _ _ (hanlen ▸ hl),
            hD k]
          push_cast
          ring
        · rw [List.set_eq_of_length_le hl,
            List.set_eq_of_length_le (hanlen ▸ hl)]
          exact hD k
      · rw [getD_set_ne _ _ _ hk', getD_set_ne _ _ _ hk']
        exact hD k'
    rw [addFuel_succ, if_neg hg, ← hc4]
    -- the state fed into the correlation phase, by cases on the cascade
    have hMain : ∀ c5 : Correlator_Likh,
        (∀ k' i, (c5.shift.getD k' []).getD i sentinel = sentinel ∨
          (c5.shift.getD k' []).getD i sentinel = x) →
        (∀ k' i, (c5.correlation.getD k' []).getD i 0 =
          ((c5.ncorrelation.getD k' []).getD i 0 : ℚ) * (x * x)) →
        (∀ k', c5.accumulator.getD k' 0 =
          (c5.naccumulator.getD k' 0 : ℚ) * x) →
        c5.shift.getD k [] = c4.shift.getD k [] →
        c5.insertindex.getD k 0 = c.insertindex.getD k 0 →
        c5.correlation.length = c5.ncorrelation.length →
        (c5.correlation.getD k []).length = (c5.ncorrelation.getD k []).length →
        ConstVals x (corrPhase sentinelTC k c5) ∧
        (x ≤ threshold →
          (corrPhase sentinelTC k c5).ncorrelation = c5.ncorrelation ∧
          (corrPhase sentinelTC k c5).correlation = c5.correlation) := by
      intro c5 hB5 hC5 hD5 hrowk hindk hlen5 hrow5
      have hPair := corrPair_const k c5 x
        (by rw [hrowk, hindk, hc4shiftrow,
              getD_set_self _ _ _ _ (by omega)])
        (fun s => hB5 k s)
        (fun j' => hC5 k j')
        hrow5
      refine ⟨⟨?_, ?_, ?_⟩, ?_⟩
      · intro k' i
        rw [corrPhase_shift]
        exact hB5 k' i
      · intro k' i
        rw [corrPhase_correlation, corrPhase_ncorrelation]
        by_cases hk' : k = k'
        · subst hk'
          rcases Nat.lt_or_ge k c5.correlation.length with hl | hl
          · rw [getD_set_self _ _ _ _ hl, getD_set_self _ _ _ _ (hlen5 ▸ hl)]
            exact hPair.1 i
          · rw [List.set_eq_of_length_le hl,
              List.set_eq_of_length_le (hlen5 ▸ hl)]
            exact hC5 k i
        · rw [getD_set_ne _ _ _ hk', getD_set_ne _ _ _ hk']
          exact hC5 k' i
      · intro k'
        rw [corrPhase_accumulator, corrPhase_naccumulator]
        exact hD5 k'
      · intro hlow
        have htf : ∀ s, sentinelTC (c5.shift.getD k [])
            (c5.nwritten.getD k 0) s = false := by
          intro s
          unfold sentinelTC
          apply decide_eq_false
          rcases hB5 k s with h | h
          · rw [h]; exact sentinel_le_threshold
          · rw [h]; exact not_lt.mpr hlow
        have hpr : corrPair sentinelTC k c5 =
            (c5.correlation.getD k [], c5.ncorrelation.getD k []) := by
          unfold corrPair corrLoop0 corrLoopK
          dsimp only
          split
          · rw [fold0_false c5.p (c5.shift.getD k [])
              (sentinelTC (c5.shift.getD k []) (c5.nwritten.getD k 0))
              (c5.insertindex.getD k 0) htf]
          · rw [foldK_false c5.p (c5.shift.getD k [])
              (sentinelTC (c5.shift.getD k []) (c5.nwritten.getD k 0))
              (c5.insertindex.getD k 0) htf]
        constructor
        · rw [corrPhase_ncorrelation, hpr]
          exact set_getD_self_eq _ _ _
        · rw [corrPhase_correlation, hpr]
          exact set_getD_self_eq _ _ _
    split
    next hc =>
      have hm : 0 < c.m := by omega
      have hmQ : ((c.m : ℚ)) ≠ 0 := by
        exact_mod_cast Nat.pos_iff_ne_zero.mp hm
      have hval : (c.accumulator.getD k 0 + x) / (c.m : ℚ) = x := by
        have hsum : c.accumulator.getD k 0 + x = (c.m : ℚ) * x := by
          rw [hD k]
          have h2 : ((c.naccumulator.getD k 0 : ℚ) + 1) = (c.m : ℚ) := by
            exact_mod_cast congrArg (fun y : Nat => (y : ℚ)) hc
          rw [← h2]
          ring
        rw [hsum]
        exact mul_div_cancel_left₀ x hmQ
      rw [hval]
      have hihres := ih c4 x (k + 1)
        (by rw [hc4, preCascade_p]; exact hp)
        (by rw [hc4, preCascade_numcorrelators, preCascade_shift,
              List.length_set]; exact hshlen)
        (by rw [hc4, preCascade_correlation, preCascade_ncorrelation]
            exact hcnlen)
        (by rw [hc4, preCascade_accumulator, preCascade_naccumulator,
              List.length_set, List.length_set]; exact hanlen)
        (by intro j hj
            rw [hc4, preCascade_numcorrelators] at hj
            rw [hc4, preCascade_correlation, preCascade_ncorrelation]
            exact hcnrow j hj)
        (by intro j hj1 hj2
            rw [hc4, preCascade_numcorrelators] at hj2
            rw [hc4, preCascade_shift, preCascade_insertindex, preCascade_p,
              getD_set_ne _ _ _ (by omega)]
            exact hrowsk j (by omega) hj2)
        (by rw [hc4, preCascade_numcorrelators]; omega)
        ⟨hB4, hC4, hD4⟩
      set Ms := addFuel sentinelTC n c4 x (k + 1) with hMs
      clear_value Ms
      have hMsEB := addFuel_eqBelow sentinelTC n c4 x (k + 1) k
        (Nat.lt_succ_self k)
      rw [← hMs] at hMsEB
      have hMsSS := addFuel_sameShapes sentinelTC n c4 x (k + 1)
      rw [← hMs] at hMsSS
      obtain ⟨⟨hBM, hCM, hDM⟩, hLowM⟩ := hihres
      have hM := hMain (postCascade k Ms)
        (by intro k' i
            rw [postCascade_shift]
            exact hBM k' i)
        (by intro k' i
            rw [postCascade_correlation, postCascade_ncorrelation]
            exact hCM k' i)
        (by intro k'
            rw [postCascade_accumulator, postCascade_naccumulator]
            by_cases hk' : k = k'
            · subst hk'
              rcases Nat.lt_or_ge k Ms.accumulator.length with hl | hl
              · have hl2 : k < Ms.naccumulator.length := by
                  rw [hMsSS.2.2.2.2.1]
                  rw [hMsSS.2.2.2.1] at hl
                  rw [hc4, preCascade_accumulator, List.length_set] at hl
                  rw [hc4, preCascade_naccumulator, List.length_set, ← hanlen]
                  exact hl
                rw [getD_set_self _ _ _ _ hl, getD_set_self _ _ _ _ hl2]
                norm_num
              · have hl2 : Ms.naccumulator.length ≤ k := by
                  rw [hMsSS.2.2.2.2.1]
                  rw [hMsSS.2.2.2.1] at hl
                  rw [hc4, preCascade_accumulator, List.length_set] at hl
                  rw [hc4, preCascade_naccumulator, List.length_set, ← hanlen]
                  exact hl
                rw [List.set_eq_of_length_le hl, List.set_eq_of_length_le hl2]
                exact hDM k
            · rw [getD_set_ne _ _ _ hk', getD_set_ne _ _ _ hk']
              exact hDM k')
        (by rw [postCascade_shift, hMsEB.1])
        (by rw [postCascade_insertindex, hMsEB.2.2.2.2.2.1, hc4,
              preCascade_insertindex])
        (by rw [postCascade_correlation, postCascade_ncorrelation, hMsSS.2.1,
              hMsSS.2.2.1, hc4, preCascade_correlation,
              preCascade_ncorrelation]
            exact hcnlen)
        (by rw [postCascade_correlation, postCascade_ncorrelation,
              hMsSS.2.2.2.2.2.2.2.2.1 k, hMsSS.2.2.2.2.2.2.2.2.2 k, hc4,
              preCascade_correlation, preCascade_ncorrelation]
            exact hcnrow k hkN')
      refine ⟨hM.1, ?_⟩
      intro hlow
      have hA := hM.2 hlow
      have hLc := hLowM hlow
      constructor
      · rw [hA.1, postCascade_ncorrelation, hLc.1, hc4,
          preCascade_ncorrelation]
      · rw [hA.2, postCascade_correlation, hLc.2, hc4,
          preCascade_correlation]
    next hc =>
      have hM := hMain c4 hB4 hC4 hD4 rfl
        (by rw [hc4, preCascade_insertindex])
        (by rw [hc4, preCascade_correlation, preCascade_ncorrelation]
            exact hcnlen)
        (by rw [hc4, preCascade_correlation, preCascade_ncorrelation]
            exact hcnrow k hkN')
      refine ⟨hM.1, ?_⟩
      intro hlow
      have hA := hM.2 hlow
      constructor
      · rw [hA.1, hc4, preCascade_ncorrelation]
      · rw [hA.2, hc4, preCascade_correlation]

theorem add_wfC (c : Correlator_Likh) (w : ℚ) (k : Nat) (h : WfC c) :
    WfC (c.add w k) := by
  rw [add_def]
  exact addFuel_wfC sentinelTC (c.numcorrelators + 1) c w k h

/-- `add` with the constant `x` (the external, level-0 call) preserves
`ConstVals x`, and — when `x` is at or below the threshold — leaves
`ncorrelation` untouched. -/
theorem add_constVals (c : Correlator_Likh) (x : ℚ)
    (hW : WfC c) (hI : IdxInv c) (hCV : ConstVals x c) :
    ConstVals x (c.add x 0) ∧
    (x ≤ threshold → (c.add x 0).ncorrelation = c.ncorrelation) := by
  obtain ⟨h1, h2, h3, h4, h5, h6, h7, h8, h9, h10⟩ := hW
  rw [add_def]
  have hres := addFuel_constVals (c.numcorrelators + 1) c x 0 h1 h3
    (h4.trans h5.symm) (h8.trans h9.symm)
    (fun j hj => ((h10 j hj).2.1).trans ((h10 j hj).2.2).symm)
    (fun j _ hj => ⟨(h10 j hj).1, (hI j hj).1⟩)
    (Nat.zero_le _) hCV
  exact ⟨hres.1, fun hl => (hres.2 hl).1⟩

/-- A constant feed maintains well-formedness, the index bounds and
`ConstVals`; at or below the threshold it never touches `ncorrelation`. -/
theorem feed_const (x : ℚ) :
    ∀ (n : Nat) (c : Correlator_Likh), WfC c → IdxInv c → ConstVals x c →
      WfC (c.feed (List.replicate n x)) ∧
      IdxInv (c.feed (List.replicate n x)) ∧
      ConstVals x (c.feed (List.replicate n x)) ∧
      (x ≤ threshold →
        (c.feed (List.replicate n x)).ncorrelation = c.ncorrelation) := by
  intro n
  induction n with
  | zero => intro c hW hI hCV; exact ⟨hW, hI, hCV, fun _ => rfl⟩
  | succ q ih =>
    intro c hW hI hCV
    rw [List.replicate_succ]
    have hstep := add_constVals c x hW hI hCV
    have hW2 := add_wfC c x 0 hW
    have hI2 := add_preserves_idxInv c x 0 hI
    have hrest := ih (c.add x 0) hW2 hI2 hstep.1
    refine ⟨hrest.1, hrest.2.1, hrest.2.2.1, ?_⟩
    intro hl
    exact (hrest.2.2.2 hl).trans (hstep.2 hl)

/-- `kmax` stays below `numcorrelators` under `add` (at an in-range
level): the depth guard stops the cascade at `numcorrelators`. -/
theorem addFuel_kmax_lt (tc : List ℚ → Nat → Nat → Bool) :
    ∀ (fuel : Nat) (c : Correlator_Likh) (w : ℚ) (k : Nat),
      c.kmax < c.numcorrelators → k ≤ c.numcorrelators →
      (addFuel tc fuel c w k).kmax < c.numcorrelators := by
  intro fuel
  induction fuel with
  | zero => intro c w k h _; exact h
  | succ n ih =>
    intro c w k h hk
    rw [addFuel_succ]
    split
    · exact h
    next hg =>
      have hkN : k < c.numcorrelators := Nat.lt_of_le_of_ne hk hg
      split
      · rw [corrPhase_kmax, postCascade_kmax]
        have hrec := ih (preCascade c w k)
          ((c.accumulator.getD k 0 + w) / (c.m : ℚ)) (k + 1)
          (by rw [preCascade_numcorrelators, preCascade_kmax]
              split <;> omega)
          (by rw [preCascade_numcorrelators]; omega)
        rw [preCascade_numcorrelators] at hrec
        exact hrec
      · rw [corrPhase_kmax, preCascade_kmax]
        split <;> omega

theorem feed_kmax_lt (ws : List ℚ) :
    ∀ c : Correlator_Likh, c.kmax < c.numcorrelators →
      (c.feed ws).kmax < (c.feed ws).numcorrelators := by
  induction ws with
  | nil => intro c h; exact h
  | cons w ws ih =>
    intro c h
    show ((c.add w 0).feed ws).kmax < ((c.add w 0).feed ws).numcorrelators
    apply ih
    rw [add_def, addFuel_numcorrelators]
    exact addFuel_kmax_lt sentinelTC (c.numcorrelators + 1) c w 0 h
      (Nat.zero_le _)

/-- Feeding never touches the configuration or the output buffers. -/
theorem feed_config (ws : List ℚ) :
    ∀ c : Correlator_Likh,
      (c.feed ws).numcorrelators = c.numcorrelators ∧
      (c.feed ws).p = c.p ∧ (c.feed ws).m = c.m ∧
      (c.feed ws).d_min = c.d_min ∧
      (c.feed ws).t = c.t ∧ (c.feed ws).f = c.f := by
  induction ws with
  | nil => intro c; exact ⟨rfl, rfl, rfl, rfl, rfl, rfl⟩
  | cons w ws ih =>
    intro c
    obtain ⟨a1, a2, a3, a4, a5, a6⟩ := ih (c.add w 0)
    refine ⟨a1.trans ?_, a2.trans ?_, a3.trans ?_, a4.trans ?_,
      a5.trans ?_, a6.trans ?_⟩ <;>
      rw [add_def] <;> simp

theorem corrStep_getD0_ne (row : List ℚ) (test : Nat → Bool) (ind1 : Nat)
    (st : List ℚ × List Nat) (j : Nat) (i2 : Int) (hj : j ≠ 0) :
    (corrStep row test ind1 st j i2).2.getD 0 0 = st.2.getD 0 0 := by
  unfold corrStep
  split
  · exact getD_set_ne _ _ _ hj
  · rfl

theorem fold0_getD0_ne (p : Nat) (row : List ℚ) (test : Nat → Bool)
    (ind1 : Nat) (js : List Nat) :
    ∀ st : Int × List ℚ × List Nat, (∀ j ∈ js, j ≠ 0) →
      (js.foldl (loopStep0 p row test ind1) st).2.2.getD 0 0 =
        st.2.2.getD 0 0 := by
  induction js with
  | nil => intro st _; rfl
  | cons j js ih =>
    intro st h
    rw [List.foldl_cons,
      ih (loopStep0 p row test ind1 st j)
        (fun a ha => h a (List.mem_cons_of_mem j ha))]
    show (corrStep row test ind1 st.2 j st.1).2.getD 0 0 = st.2.2.getD 0 0
    exact corrStep_getD0_ne row test ind1 st.2 j st.1
      (h j (List.mem_cons_self j js))

/-- The first iteration of the level-0 correlation loop is the lag-0
self-pair: if the test accepts the just-written slot `ind1`, the lag-0
count goes up by exactly one (the remaining iterations touch lags
`1, …, p-1` only). -/
theorem corrLoop0_getD0 (p : Nat) (hp : 0 < p) (row : List ℚ)
    (test : Nat → Bool) (ind1 : Nat) (corrRow : List ℚ)
    (ncorrRow : List Nat) (htest : test ind1 = true)
    (hnl : 0 < ncorrRow.length) :
    (corrLoop0 p row test ind1 corrRow ncorrRow).2.getD 0 0 =
      ncorrRow.getD 0 0 + 1 := by
  unfold corrLoop0
  obtain ⟨q, hq⟩ : ∃ q, p = q + 1 := ⟨p - 1, by omega⟩
  subst hq
  rw [List.range_succ_eq_map, List.foldl_cons,
    fold0_getD0_ne (q + 1) row test ind1 ((List.range q).map Nat.succ) _
      (by intro j hj
          rcases List.mem_map.mp hj with ⟨a, _, ha⟩
          omega)]
  show (corrStep row test ind1 (corrRow, ncorrRow) 0 ((ind1 : Int))).2.getD
    0 0 = ncorrRow.getD 0 0 + 1
  have hstep : corrStep row test ind1 (corrRow, ncorrRow) 0 ((ind1 : Int)) =
      (corrRow.set 0 (corrRow.getD 0 0 +
          row.getD ind1 sentinel * row.getD ind1 sentinel),
       ncorrRow.set 0 (ncorrRow.getD 0 0 + 1)) := by
    unfold corrStep
    rw [Int.toNat_natCast, htest]
    rfl
  rw [hstep]
  show (ncorrRow.set 0 (ncorrRow.getD 0 0 + 1)).getD 0 0 = _
  rw [getD_set_self _ _ _ _ hnl]

/-- One level-0 `add` of a value above the threshold bumps `accval` by the
value and the lag-0 count `ncorrelation[0][0]` by one. -/
theorem add0_accInc (c : Correlator_Likh) (x : ℚ)
    (hW : WfC c) (hI : IdxInv c) (hN : 0 < c.numcorrelators)
    (hx : threshold < x) :
    (c.add x 0).accval = c.accval + x ∧
    ((c.add x 0).ncorrelation.getD 0 []).getD 0 0 =
      (c.ncorrelation.getD 0 []).getD 0 0 + 1 := by
  obtain ⟨hp, hd, hshlen, hclen, hnclen, hiilen, hnwlen, halen, hnalen,
    hrows⟩ := hW
  have hrlen := (hrows 0 hN).1
  have hnlen := (hrows 0 hN).2.2
  have hind := (hI 0 hN).1
  have hshl : 0 < c.shift.length := by omega
  have hncl : 0 < c.ncorrelation.length := by omega
  have hg : ¬ ((0 : Nat) = c.numcorrelators) := by omega
  have hc4sh : (preCascade c x 0).shift.getD 0 [] =
      (c.shift.getD 0 []).set (c.insertindex.getD 0 0) x := by
    rw [preCascade_shift, getD_set_self _ _ _ _ hshl]
  have hMain : ∀ c5 : Correlator_Likh,
      c5.p = c.p →
      c5.accval = c.accval + x →
      c5.ncorrelation.getD 0 [] = c.ncorrelation.getD 0 [] →
      0 < c5.ncorrelation.length →
      c5.shift.getD 0 [] =
        (c.shift.getD 0 []).set (c.insertindex.getD 0 0) x →
      c5.insertindex.getD 0 0 = c.insertindex.getD 0 0 →
      (corrPhase sentinelTC 0 c5).accval = c.accval + x ∧
      ((corrPhase sentinelTC 0 c5).ncorrelation.getD 0 []).getD 0 0 =
        (c.ncorrelation.getD 0 []).getD 0 0 + 1 := by
    intro c5 hP hA hN0 hNL hSh hIdx
    refine ⟨by rw [corrPhase_accval]; exact hA, ?_⟩
    rw [corrPhase_ncorrelation, getD_set_self _ _ _ _ hNL]
    have htst : sentinelTC (c5.shift.getD 0 []) (c5.nwritten.getD 0 0)
        (c5.insertindex.getD 0 0) = true := by
      unfold sentinelTC
      rw [hSh, hIdx, getD_set_self _ _ _ _ (by rw [hrlen]; exact hind)]
      exact decide_eq_true hx
    show (corrLoop0 c5.p (c5.shift.getD 0 [])
      (sentinelTC (c5.shift.getD 0 []) (c5.nwritten.getD 0 0))
      (c5.insertindex.getD 0 0) (c5.correlation.getD 0 [])
      (c5.ncorrelation.getD 0 [])).2.getD 0 0 = _
    rw [corrLoop0_getD0 c5.p (by rw [hP]; exact hp) (c5.shift.getD 0 [])
      (sentinelTC (c5.shift.getD 0 []) (c5.nwritten.getD 0 0))
      (c5.insertindex.getD 0 0) (c5.correlation.getD 0 [])
      (c5.ncorrelation.getD 0 []) htst
      (by rw [hN0, hnlen]; exact hp), hN0]
  rw [add_def, addFuel_succ, if_neg hg]
  split
  next hc =>
    exact hMain (postCascade 0 (addFuel sentinelTC c.numcorrelators
        (preCascade c x 0) ((c.accumulator.getD 0 0 + x) / (c.m : ℚ))
        (0 + 1)))
      (by simp)
      (by rw [postCascade_accval,
            addFuel_accval_of_pos sentinelTC c.numcorrelators
              (preCascade c x 0)
              ((c.accumulator.getD 0 0 + x) / (c.m : ℚ)) (0 + 1)
              (by omega),
            preCascade_accval]
          simp)
      (by rw [postCascade_ncorrelation,
            (addFuel_eqBelow sentinelTC c.numcorrelators (preCascade c x 0)
              ((c.accumulator.getD 0 0 + x) / (c.m : ℚ)) (0 + 1) 0
              (by omega)).2.2.1,
            preCascade_ncorrelation])
      (by rw [postCascade_ncorrelation,
            (addFuel_sameShapes sentinelTC c.numcorrelators
              (preCascade c x 0)
              ((c.accumulator.getD 0 0 + x) / (c.m : ℚ)) (0 + 1)).2.2.1,
            preCascade_ncorrelation]
          exact hncl)
      (by rw [postCascade_shift,
            (addFuel_eqBelow sentinelTC c.numcorrelators (preCascade c x 0)
              ((c.accumulator.getD 0 0 + x) / (c.m : ℚ)) (0 + 1) 0
              (by omega)).1,
            hc4sh])
      (by rw [postCascade_insertindex,
            (addFuel_eqBelow sentinelTC c.numcorrelators (preCascade c x 0)
              ((c.accumulator.getD 0 0 + x) / (c.m : ℚ)) (0 + 1) 0
              (by omega)).2.2.2.2.2.1,
            preCascade_insertindex])
  next hc =>
    exact hMain (preCascade c x 0)
      (by simp)
      (by rw [preCascade_accval]; simp)
      (by rw [preCascade_ncorrelation])
      (by rw [preCascade_ncorrelation]; exact hncl)
      hc4sh
      (by rw [preCascade_insertindex])

/-- A constant feed of `n` samples above the threshold adds `n · x` to
`accval` and `n` to the lag-0 count. -/
theorem feed_const_acc (x : ℚ) (hx : threshold < x) :
    ∀ (n : Nat) (c : Correlator_Likh), WfC c → IdxInv c →
      0 < c.numcorrelators → ConstVals x c →
      (c.feed (List.replicate n x)).accval = c.accval + n * x ∧
      ((c.feed (List.replicate n x)).ncorrelation.getD 0 []).getD 0 0 =
        (c.ncorrelation.getD 0 []).getD 0 0 + n := by
  intro n
  induction n with
  | zero =>
    intro c _ _ _ _
    constructor <;> simp [feed]
  | succ q ih =>
    intro c hW hI hN hCV
    rw [List.replicate_succ]
    have hstep := add0_accInc c x hW hI hN hx
    have hrest := ih (c.add x 0) (add_wfC c x 0 hW)
      (add_preserves_idxInv c x 0 hI)
      (by rw [add_def, addFuel_numcorrelators]; exact hN)
      (add_constVals c x hW hI hCV).1
    constructor
    · show ((c.add x 0).feed (List.replicate q x)).accval = _
      rw [hrest.1, hstep.1]
      push_cast
      ring
    · show (((c.add x 0).feed
        (List.replicate q x)).ncorrelation.getD 0 []).getD 0 0 = _
      rw [hrest.2, hstep.2]
      omega

theorem getD_mem_of_lt {β : Type _} : ∀ (l : List β) (j : Nat) (d : β),
    j < l.length → l.getD j d ∈ l := by
  intro l
  induction l with
  | nil => intro j d h; exact absurd h (by simp)
  | cons a t ih =>
    intro j d h
    cases j with
    | zero => exact List.mem_cons_self a t
    | succ q =>
      rw [List.getD_cons_succ]
      exact List.mem_cons_of_mem a
        (ih q d (by rw [List.length_cons] at h; omega))

/-- Under `correlation = ncorrelation · x²`, every emitted value is
`x² - aux` (the emission guard ensures the count divides out exactly). -/
theorem evalPairs_snd (c : Correlator_Likh) (b : Bool) (x : ℚ)
    (hC : ∀ k i, (c.correlation.getD k []).getD i 0 =
      ((c.ncorrelation.getD k []).getD i 0 : ℚ) * (x * x)) :
    ∀ pr ∈ c.evalPairs b, pr.2 = x * x - c.evalAux b := by
  intro pr hpr
  unfold evalPairs at hpr
  rcases List.mem_append.mp hpr with h | h
  · rcases List.mem_filterMap.mp h with ⟨i, _, hi⟩
    split at hi
    next hpos =>
      have hpr2 := Option.some.inj hi
      subst hpr2
      dsimp only
      have hne : (((c.ncorrelation.getD 0 []).getD i 0 : Nat) : ℚ) ≠ 0 :=
        Nat.cast_ne_zero.mpr (by omega)
      rw [hC 0 i,
        mul_comm ((((c.ncorrelation.getD 0 []).getD i 0 : Nat)) : ℚ) (x * x),
        mul_div_assoc, div_self hne, mul_one]
    next => exact Option.noConfusion hi
  · rcases List.mem_flatMap.mp h with ⟨k, _, hmem⟩
    rcases List.mem_filterMap.mp hmem with ⟨i, _, hi⟩
    split at hi
    next hpos =>
      have hpr2 := Option.some.inj hi
      subst hpr2
      dsimp only
      have hne : (((c.ncorrelation.getD k []).getD i 0 : Nat) : ℚ) ≠ 0 :=
        Nat.cast_ne_zero.mpr (by omega)
      rw [hC k i,
        mul_comm ((((c.ncorrelation.getD k []).getD i 0 : Nat)) : ℚ) (x * x),
        mul_div_assoc, div_self hne, mul_one]
    next => exact Option.noConfusion hi

/-- With every count zero, nothing is emitted. -/
theorem evalPairs_eq_nil (c : Correlator_Likh) (b : Bool)
    (h : ∀ k i, (c.ncorrelation.getD k []).getD i 0 = 0) :
    c.evalPairs b = [] := by
  unfold evalPairs
  have h0 : ((List.range c.p).filterMap fun i =>
      if 0 < (c.ncorrelation.getD 0 []).getD i 0 then
        some ((i : ℚ),
          (c.correlation.getD 0 []).getD i 0 /
            (((c.ncorrelation.getD 0 []).getD i 0 : Nat) : ℚ) -
              c.evalAux b)
      else none) = [] := by
    rw [List.filterMap_eq_nil_iff]
    intro i _
    rw [h 0 i]
    rfl
  have h2 : ((List.range' 1 (c.kmax - 1)).flatMap fun k =>
      (List.range' c.d_min (c.p - c.d_min)).filterMap fun i =>
        if 0 < (c.ncorrelation.getD k []).getD i 0 then
          some ((i : ℚ) * ((c.m : ℚ)) ^ k,
            (c.correlation.getD k []).getD i 0 /
              (((c.ncorrelation.getD k []).getD i 0 : Nat) : ℚ) -
                c.evalAux b)
        else none) = [] := by
    rw [List.flatMap_eq_nil_iff]
    intro k _
    rw [List.filterMap_eq_nil_iff]
    intro i _
    rw [h k i]
    rfl
  rw [h0, h2]
  rfl

theorem evaluate_zero_npcorr (c : Correlator_Likh) (norm : Bool)
    (hz : ∀ k i, (c.ncorrelation.getD k []).getD i 0 = 0) :
    (c.evaluate norm).npcorr = 0 := by
  have hnp : (c.evaluate norm).npcorr = (c.evalPairs norm).length := by
    rw [evaluate_eq_overlay]
  rw [hnp, evalPairs_eq_nil c norm hz]
  rfl

/-- On a state whose correlation sums are `count · x²` everywhere and whose
mean-square correction is `x²` (when normalizing), every emitted value is
`x²` — `0` when normalizing. -/
theorem evaluate_const_f (c : Correlator_Likh) (norm : Bool) (x : ℚ)
    (hkx : c.kmax < c.numcorrelators)
    (hCrel : ∀ k i, (c.correlation.getD k []).getD i 0 =
      ((c.ncorrelation.getD k []).getD i 0 : ℚ) * (x * x))
    (hf : c.f.length = c.numcorrelators * c.p)
    (haux : c.evalAux norm = if norm then x * x else 0) :
    ∀ j, j < (c.evaluate norm).npcorr →
      (c.evaluate norm).f.getD j 0 = if norm then 0 else x * x := by
  intro j hj
  have hnp : (c.evaluate norm).npcorr = (c.evalPairs norm).length := by
    rw [evaluate_eq_overlay]
  rw [hnp] at hj
  have hb := evalPairs_length_le c norm hkx
  have hjf : j < c.f.length := by omega
  have hfval : (c.evaluate norm).f =
      overlay c.f 0 ((c.evalPairs norm).map Prod.snd) := by
    rw [evaluate_eq_overlay]
  rw [hfval, getD_overlay_mem _ _ _ _ _ (Nat.zero_le j)
    (by rw [List.length_map]; omega) hjf, Nat.sub_zero,
    getD_map_of_lt Prod.snd _ j 0 (0, 0) hj]
  rw [evalPairs_snd c norm x hCrel ((c.evalPairs norm).getD j (0, 0))
    (getD_mem_of_lt _ j (0, 0) hj), haux]
  cases norm <;> simp

/-- **C5**: feeding a fresh engine the constant `x` for `n ≥ p·m^(N-1)`
samples and evaluating yields `x²` at every one of the `npcorr` emitted
lags without normalization, and `0` at every emitted lag with
normalization — the correction `aux = (accval/ncorrelation[0][0])²`
equals `x²` exactly. -/
theorem C5_constant_signal (N p m n : Nat) (x : ℚ) (norm : Bool)
    (hp : 0 < p) (hm : 0 < m) (hn : p * m ^ (N - 1) ≤ n) :
    ∀ j,
      j < (((initState N p m).feed (List.replicate n x)).evaluate
        norm).npcorr →
      (((initState N p m).feed (List.replicate n x)).evaluate
        norm).f.getD j 0 = if norm then 0 else x * x := by
  intro j hj
  have hW0 := initState_wfC N p m hp
  have hI0 := initState_idxInv N p m hp hm
  have hCV0 := initState_constVals N p m x
  have hcfg := feed_config (List.replicate n x) (initState N p m)
  obtain ⟨hW, hI, hCV, hLow⟩ := feed_const x n (initState N p m) hW0 hI0 hCV0
  by_cases hN0 : N = 0
  · subst hN0
    have hlen0 : ((initState 0 p m).feed
        (List.replicate n x)).ncorrelation.length = 0 := by
      rw [hW.2.2.2.2.1, hcfg.1]
      rfl
    rw [List.length_eq_zero] at hlen0
    have hz : ∀ k i, ((((initState 0 p m).feed
        (List.replicate n x)).ncorrelation.getD k []).getD i 0) = 0 := by
      intro k i
      rw [hlen0]
      rfl
    rw [evaluate_zero_npcorr _ norm hz] at hj
    exact absurd hj (Nat.not_lt_zero j)
  have hN1 : 0 < N := Nat.pos_of_ne_zero hN0
  by_cases hxlow : x ≤ threshold
  · have hz : ∀ k i, ((((initState N p m).feed
        (List.replicate n x)).ncorrelation.getD k []).getD i 0) = 0 := by
      intro k i
      rw [hLow hxlow]
      show (((initState N p m).ncorrelation.getD k []).getD i 0) = 0
      rcases Nat.lt_or_ge k N with hk | hk
      · rcases Nat.lt_or_ge i p with hi | hi <;>
          simp [initState, List.getElem?_replicate, hk, hi, Nat.not_lt.mpr]
      · simp [initState, List.getElem?_replicate, Nat.not_lt.mpr hk]
    rw [evaluate_zero_npcorr _ norm hz] at hj
    exact absurd hj (Nat.not_lt_zero j)
  have hx : threshold < x := not_le.mp hxlow
  have hn1 : 0 < n := by
    have hpow : 0 < p * m ^ (N - 1) := Nat.mul_pos hp (pow_pos hm _)
    omega
  have hacc := feed_const_acc x hx n (initState N p m) hW0 hI0
    (by show 0 < N; omega) hCV0
  have ha1 : ((initState N p m).feed (List.replicate n x)).accval =
      n * x := by
    rw [hacc.1]
    show (0 : ℚ) + n * x = n * x
    rw [zero_add]
  have hinit00 : (((initState N p m).ncorrelation.getD 0 []).getD 0 0) =
      0 := by
    rcases Nat.lt_or_ge 0 p with hi | hi <;>
      simp [initState, List.getElem?_replicate, hN1, hi, Nat.not_lt.mpr]
  have ha2 : ((((initState N p m).feed
      (List.replicate n x)).ncorrelation.getD 0 []).getD 0 0) = n := by
    rw [hacc.2, hinit00, Nat.zero_add]
  have hnne : ((n : ℚ)) ≠ 0 := Nat.cast_ne_zero.mpr (by omega)
  have haux : ((initState N p m).feed (List.replicate n x)).evalAux norm =
      if norm then x * x else 0 := by
    cases norm with
    | false => rfl
    | true =>
      show ((initState N p m).feed (List.replicate n x)).accval /
          ((((((initState N p m).feed
            (List.replicate n x)).ncorrelation.getD 0 []).getD 0 0 :
              Nat)) : ℚ) *
          (((initState N p m).feed (List.replicate n x)).accval /
          ((((((initState N p m).feed
            (List.replicate n x)).ncorrelation.getD 0 []).getD 0 0 :
              Nat)) : ℚ)) = x * x
      rw [ha1, ha2, mul_comm ((n : ℚ)) x, mul_div_assoc, div_self hnne,
        mul_one]
  have hkx : ((initState N p m).feed (List.replicate n x)).kmax <
      ((initState N p m).feed (List.replicate n x)).numcorrelators :=
    feed_kmax_lt (List.replicate n x) (initState N p m) (by show 0 < N; omega)
  have hf : ((initState N p m).feed (List.replicate n x)).f.length =
      ((initState N p m).feed (List.replicate n x)).numcorrelators *
        ((initState N p m).feed (List.replicate n x)).p := by
    rw [hcfg.2.2.2.2.2, hcfg.1, hcfg.2.1]
    show (List.replicate (N * p) (0 : ℚ)).length = N * p
    rw [List.length_replicate]
  exact evaluate_const_f ((initState N p m).feed (List.replicate n x)) norm
    x hkx hCV.2.1 hf haux j hj

theorem C5_constant_signal_witness :
    0 < 1 ∧ 0 < 2 ∧ 1 * 2 ^ (1 - 1) ≤ 3 ∧
    ∀ j,
      j < (((initState 1 1 2).feed (List.replicate 3 (1 : ℚ))).evaluate
        false).npcorr →
      (((initState 1 1 2).feed (List.replicate 3 (1 : ℚ))).evaluate
        false).f.getD j 0 = if false then 0 else 1 * 1 :=
  ⟨by decide, by decide, by decide,
    C5_constant_signal 1 1 2 3 1 false (by decide) (by decide) (by decide)⟩

/-! ## Claim C4: cascade timing -/

/-- The counting dynamics of `add` are value-independent: if, seen from
level `k`, the per-level insertion counters follow the base-`m` clock of
`q` insertions received at level `k` so far (`nwritten[j] = q / m^(j-k)`,
with `naccumulator` and `insertindex` the corresponding residues), then
one more insertion at level `k` advances the clock to `q + 1` — the
cascade fires exactly when the level's group fills up. -/
theorem addFuel_counts (tc : List ℚ → Nat → Nat → Bool) :
    ∀ (fuel : Nat) (c : Correlator_Likh) (w : ℚ) (k q : Nat),
      0 < c.m → 0 < c.p →
      c.numcorrelators - k < fuel →
      c.nwritten.length = c.numcorrelators →
      c.naccumulator.length = c.numcorrelators →
      c.insertindex.length = c.numcorrelators →
      (∀ j, k ≤ j → j < c.numcorrelators →
        c.nwritten.getD j 0 = q / c.m ^ (j - k) ∧
        c.naccumulator.getD j 0 = (q / c.m ^ (j - k)) % c.m ∧
        c.insertindex.getD j 0 = (q / c.m ^ (j - k)) % c.p) →
      ∀ j, k ≤ j → j < c.numcorrelators →
        (addFuel tc fuel c w k).nwritten.getD j 0 =
          (q + 1) / c.m ^ (j - k) ∧
        (addFuel tc fuel c w k).naccumulator.getD j 0 =
          ((q + 1) / c.m ^ (j - k)) % c.m ∧
        (addFuel tc fuel c w k).insertindex.getD j 0 =
          ((q + 1) / c.m ^ (j - k)) % c.p := by
  intro fuel
  induction fuel with
  | zero =>
    intro c w k q _ _ hfuel _ _ _ _ j hj1 hj2
    omega
  | succ n ih =>
    intro c w k q hm hp hfuel hnwl hnal hiil hrows j hj1 hj2
    have hg : ¬ (k = c.numcorrelators) := by omega
    have hkN : k < c.numcorrelators := by omega
    have hWk : c.nwritten.getD k 0 = q := by
      have h := (hrows k le_rfl hkN).1
      rwa [Nat.sub_self, pow_zero, Nat.div_one] at h
    have hAk : c.naccumulator.getD k 0 = q % c.m := by
      have h := (hrows k le_rfl hkN).2.1
      rwa [Nat.sub_self, pow_zero, Nat.div_one] at h
    have hIk : c.insertindex.getD k 0 = q % c.p := by
      have h := (hrows k le_rfl hkN).2.2
      rwa [Nat.sub_self, pow_zero, Nat.div_one] at h
    have hdivshift : ∀ j', k + 1 ≤ j' → ∀ r : Nat,
        r / c.m ^ (j' - k) = (r / c.m) / c.m ^ (j' - (k + 1)) := by
      intro j' hj' r
      have h1 : j' - k = (j' - (k + 1)) + 1 := by omega
      rw [h1, pow_succ', Nat.div_div_eq_div_mul]
    set c4 := preCascade c w k with hc4
    clear_value c4
    rw [addFuel_succ, if_neg hg, ← hc4]
    split
    next hc =>
      have hqm : q % c.m + 1 = c.m := by rw [← hAk]; exact hc
      have hdvd : c.m ∣ q + 1 := ⟨q / c.m + 1, by
        have h := Nat.div_add_mod q c.m
        rw [Nat.mul_add, Nat.mul_one]
        omega⟩
      have hq1 : (q + 1) / c.m = q / c.m + 1 := by
        rw [Nat.succ_div, if_pos hdvd]
      have hq1m : (q + 1) % c.m = 0 := by
        rw [succ_mod_eq q c.m hm, if_pos hqm]
      have hrows4 : ∀ j', k + 1 ≤ j' → j' < c4.numcorrelators →
          c4.nwritten.getD j' 0 = (q / c.m) / c4.m ^ (j' - (k + 1)) ∧
          c4.naccumulator.getD j' 0 =
            ((q / c.m) / c4.m ^ (j' - (k + 1))) % c4.m ∧
          c4.insertindex.getD j' 0 =
            ((q / c.m) / c4.m ^ (j' - (k + 1))) % c4.p := by
        intro j' hj1' hj2'
        rw [hc4] at hj2' ⊢
        rw [preCascade_numcorrelators] at hj2'
        rw [preCascade_nwritten, preCascade_naccumulator,
          preCascade_insertindex, preCascade_m, preCascade_p,
          getD_set_ne _ _ _ (by omega : k ≠ j'),
          getD_set_ne _ _ _ (by omega : k ≠ j')]
        obtain ⟨w1, w2, w3⟩ := hrows j' (by omega) hj2'
        rw [w1, w2, w3, hdivshift j' hj1' q]
        exact ⟨rfl, rfl, rfl⟩
      have hih := ih c4 ((c.accumulator.getD k 0 + w) / (c.m : ℚ)) (k + 1)
        (q / c.m)
        (by rw [hc4, preCascade_m]; exact hm)
        (by rw [hc4, preCascade_p]; exact hp)
        (by rw [hc4, preCascade_numcorrelators]; omega)
        (by rw [hc4, preCascade_nwritten, List.length_set,
              preCascade_numcorrelators]; exact hnwl)
        (by rw [hc4, preCascade_naccumulator, List.length_set,
              preCascade_numcorrelators]; exact hnal)
        (by rw [hc4, preCascade_insertindex, preCascade_numcorrelators]
            exact hiil)
        hrows4
      set Ms := addFuel tc n c4
        ((c.accumulator.getD k 0 + w) / (c.m : ℚ)) (k + 1) with hMs
      clear_value Ms
      have hMsEB := addFuel_eqBelow tc n c4
        ((c.accumulator.getD k 0 + w) / (c.m : ℚ)) (k + 1) k
        (Nat.lt_succ_self k)
      rw [← hMs] at hMsEB
      have hMsSS := addFuel_sameShapes tc n c4
        ((c.accumulator.getD k 0 + w) / (c.m : ℚ)) (k + 1)
      rw [← hMs] at hMsSS
      rcases Nat.eq_or_lt_of_le hj1 with hjk | hjk
      · subst hjk
        refine ⟨?_, ?_, ?_⟩
        · rw [Nat.sub_self, pow_zero, Nat.div_one, corrPhase_nwritten,
            postCascade_nwritten, hMsEB.2.2.2.2.2.2, hc4,
            preCascade_nwritten, getD_set_self _ _ _ _ (by omega), hWk]
        · rw [Nat.sub_self, pow_zero, Nat.div_one, corrPhase_naccumulator,
            postCascade_naccumulator,
            getD_set_self _ _ _ _
              (by rw [hMsSS.2.2.2.2.1, hc4, preCascade_naccumulator,
                    List.length_set, hnal]
                  omega),
            hq1m]
        · have hind5 : (postCascade k Ms).insertindex.getD k 0 = q % c.p := by
            rw [postCascade_insertindex, hMsEB.2.2.2.2.2.1, hc4,
              preCascade_insertindex, hIk]
          have hp5 : (postCascade k Ms).p = c.p := by
            rw [postCascade_p, hMs, addFuel_p, hc4, preCascade_p]
          rw [Nat.sub_self, pow_zero, Nat.div_one, corrPhase_insertindex,
            getD_set_self _ _ _ _
              (by rw [postCascade_insertindex, hMsSS.2.2.2.2.2.1, hc4,
                    preCascade_insertindex, hiil]
                  omega),
            hind5, hp5, succ_mod_eq q c.p hp]
      · have hj1' : k + 1 ≤ j := hjk
        obtain ⟨m1, m2, m3⟩ := hih j hj1'
          (by rw [hc4, preCascade_numcorrelators]; omega)
        rw [hc4, preCascade_m] at m1
        rw [hc4, preCascade_m] at m2
        rw [hc4, preCascade_m, preCascade_p] at m3
        refine ⟨?_, ?_, ?_⟩
        · rw [corrPhase_nwritten, postCascade_nwritten, m1,
            hdivshift j hj1' (q + 1), hq1]
        · rw [corrPhase_naccumulator, postCascade_naccumulator,
            getD_set_ne _ _ _ (by omega : k ≠ j), m2,
            hdivshift j hj1' (q + 1), hq1]
        · rw [corrPhase_insertindex,
            getD_set_ne _ _ _ (by omega : k ≠ j), postCascade_insertindex,
            m3, hdivshift j hj1' (q + 1), hq1]
    next hc =>
      have hqm : ¬ (q % c.m + 1 = c.m) := by rw [← hAk]; exact hc
      have hndvd : ¬ c.m ∣ q + 1 := by
        intro hd
        have h0 : (q + 1) % c.m = 0 := Nat.dvd_iff_mod_eq_zero.mp hd
        rw [succ_mod_eq q c.m hm, if_neg hqm] at h0
        omega
      have hq1 : (q + 1) / c.m = q / c.m := by
        rw [Nat.succ_div, if_neg hndvd, Nat.add_zero]
      have hq1m : (q + 1) % c.m = q % c.m + 1 := by
        rw [succ_mod_eq q c.m hm, if_neg hqm]
      rcases Nat.eq_or_lt_of_le hj1 with hjk | hjk
      · subst hjk
        refine ⟨?_, ?_, ?_⟩
        · rw [Nat.sub_self, pow_zero, Nat.div_one, corrPhase_nwritten, hc4,
            preCascade_nwritten, getD_set_self _ _ _ _ (by omega), hWk]
        · rw [Nat.sub_self, pow_zero, Nat.div_one, corrPhase_naccumulator,
            hc4, preCascade_naccumulator,
            getD_set_self _ _ _ _ (by omega), hAk, hq1m]
        · have hind5 : c4.insertindex.getD k 0 = q % c.p := by
            rw [hc4, preCascade_insertindex, hIk]
          have hp5 : c4.p = c.p := by rw [hc4, preCascade_p]
          rw [Nat.sub_self, pow_zero, Nat.div_one, corrPhase_insertindex,
            getD_set_self _ _ _ _
              (by rw [hc4, preCascade_insertindex, hiil]; omega),
            hind5, hp5, succ_mod_eq q c.p hp]
      · have hj1' : k + 1 ≤ j := hjk
        have hsame : (q + 1) / c.m ^ (j - k) = q / c.m ^ (j - k) := by
          rw [hdivshift j hj1' (q + 1), hdivshift j hj1' q, hq1]
        obtain ⟨w1, w2, w3⟩ := hrows j hj1 hj2
        refine ⟨?_, ?_, ?_⟩
        · rw [corrPhase_nwritten, hc4, preCascade_nwritten,
            getD_set_ne _ _ _ (by omega : k ≠ j), w1, hsame]
        · rw [corrPhase_naccumulator, hc4, preCascade_naccumulator,
            getD_set_ne _ _ _ (by omega : k ≠ j), w2, hsame]
        · rw [corrPhase_insertindex,
            getD_set_ne _ _ _ (by omega : k ≠ j), hc4,
            preCascade_insertindex, w3, hsame]

theorem feed_wfC (ws : List ℚ) :
    ∀ c : Correlator_Likh, WfC c → WfC (c.feed ws) := by
  induction ws with
  | nil => intro c h; exact h
  | cons w ws ih => intro c h; exact ih (c.add w 0) (add_wfC c w 0 h)

theorem feed_append (c : Correlator_Likh) (l1 l2 : List ℚ) :
    c.feed (l1 ++ l2) = (c.feed l1).feed l2 := by
  unfold feed
  rw [List.foldl_append]

/-- The freshly initialized counters satisfy the base-`m` clock at `q = 0`
insertions. -/
theorem initState_counts (N p m : Nat) :
    ∀ j, j < (initState N p m).numcorrelators →
      (initState N p m).nwritten.getD j 0 = 0 / (initState N p m).m ^ j ∧
      (initState N p m).naccumulator.getD j 0 =
        (0 / (initState N p m).m ^ j) % (initState N p m).m ∧
      (initState N p m).insertindex.getD j 0 =
        (0 / (initState N p m).m ^ j) % (initState N p m).p := by
  intro j hj
  have hj' : j < N := hj
  refine ⟨?_, ?_, ?_⟩ <;>
    simp [initState, getD_replicate, hj', Nat.zero_div, Nat.zero_mod]

/-- Feeding `n` samples advances the counting clock by `n`: after the feed
every level `j` has received `(q+n) / m^j` insertions, with the matching
accumulator and cursor residues. -/
theorem feed_counts (ws : List ℚ) :
    ∀ (q : Nat) (c : Correlator_Likh), WfC c → 0 < c.m →
      (∀ j, j < c.numcorrelators →
        c.nwritten.getD j 0 = q / c.m ^ j ∧
        c.naccumulator.getD j 0 = (q / c.m ^ j) % c.m ∧
        c.insertindex.getD j 0 = (q / c.m ^ j) % c.p) →
      ∀ j, j < c.numcorrelators →
        (c.feed ws).nwritten.getD j 0 = (q + ws.length) / c.m ^ j ∧
        (c.feed ws).naccumulator.getD j 0 =
          ((q + ws.length) / c.m ^ j) % c.m ∧
        (c.feed ws).insertindex.getD j 0 =
          ((q + ws.length) / c.m ^ j) % c.p := by
  induction ws with
  | nil =>
    intro q c _ _ hrows j hj
    rw [List.length_nil, Nat.add_zero]
    exact hrows j hj
  | cons w ws ih =>
    intro q c hW hm hrows j hj
    have hstep := addFuel_counts sentinelTC (c.numcorrelators + 1) c w 0 q
      hm hW.1 (by omega) hW.2.2.2.2.2.2.1 hW.2.2.2.2.2.2.2.2.1
      hW.2.2.2.2.2.1
      (by intro j' _ hj'
          rw [Nat.sub_zero]
          exact hrows j' hj')
    have hrest := ih (q + 1) (c.add w 0) (add_wfC c w 0 hW)
      (by rw [add_def, addFuel_m]; exact hm)
      (by intro j' hj'
          rw [add_def, addFuel_numcorrelators] at hj'
          rw [add_def, addFuel_m, addFuel_p]
          have h := hstep j' (Nat.zero_le j') hj'
          rwa [Nat.sub_zero] at h)
      j (by rw [add_def, addFuel_numcorrelators]; exact hj)
    rw [add_def, addFuel_m, addFuel_p] at hrest
    have harith : q + (w :: ws).length = (q + 1) + ws.length := by
      rw [List.length_cons]
      omega
    rw [harith]
    exact hrest

/-- A level-0 `add` that does not fill the group only bumps the level-0
accumulator pair. -/
theorem add0_noCascade (c : Correlator_Likh) (w : ℚ)
    (hN : 0 < c.numcorrelators)
    (hal : 0 < c.accumulator.length) (hnal : 0 < c.naccumulator.length)
    (hc : ¬ (c.naccumulator.getD 0 0 + 1 = c.m)) :
    (c.add w 0).accumulator.getD 0 0 = c.accumulator.getD 0 0 + w ∧
    (c.add w 0).naccumulator.getD 0 0 = c.naccumulator.getD 0 0 + 1 := by
  rw [add_def, addFuel_succ,
    if_neg (by omega : ¬ ((0 : Nat) = c.numcorrelators)), if_neg hc]
  constructor
  · rw [corrPhase_accumulator, preCascade_accumulator,
      getD_set_self _ _ _ _ hal]
  · rw [corrPhase_naccumulator, preCascade_naccumulator,
      getD_set_self _ _ _ _ hnal]

/-- As long as the level-0 group never fills, feeding accumulates the
exact running sum and count. -/
theorem feed_partial (ws : List ℚ) :
    ∀ c : Correlator_Likh, WfC c → 0 < c.numcorrelators →
      c.naccumulator.getD 0 0 + ws.length < c.m →
      (c.feed ws).accumulator.getD 0 0 =
        c.accumulator.getD 0 0 + ws.sum ∧
      (c.feed ws).naccumulator.getD 0 0 =
        c.naccumulator.getD 0 0 + ws.length := by
  induction ws with
  | nil =>
    intro c _ _ _
    constructor
    · show c.accumulator.getD 0 0 =
        c.accumulator.getD 0 0 + List.sum ([] : List ℚ)
      rw [List.sum_nil, add_zero]
    · rfl
  | cons w ws ih =>
    intro c hW hN hb
    rw [List.length_cons] at hb
    have hc : ¬ (c.naccumulator.getD 0 0 + 1 = c.m) := by omega
    have hal : 0 < c.accumulator.length := by
      have h := hW.2.2.2.2.2.2.2.1
      omega
    have hnal : 0 < c.naccumulator.length := by
      have h := hW.2.2.2.2.2.2.2.2.1
      omega
    have hstep := add0_noCascade c w hN hal hnal hc
    have hrest := ih (c.add w 0) (add_wfC c w 0 hW)
      (by rw [add_def, addFuel_numcorrelators]; exact hN)
      (by rw [hstep.2, add_def, addFuel_m]
          omega)
    constructor
    · show ((c.add w 0).feed ws).accumulator.getD 0 0 = _
      rw [hrest.1, hstep.1, List.sum_cons]
      ring
    · show ((c.add w 0).feed ws).naccumulator.getD 0 0 = _
      rw [hrest.2, hstep.2, List.length_cons]
      omega

/-- `add(w, k)` at an in-range level writes `w` into the level's buffer at
the current cursor — whatever the cascade does above. -/
theorem addFuel_shift_row (tc : List ℚ → Nat → Nat → Bool) (fuel : Nat)
    (c : Correlator_Likh) (w : ℚ) (k : Nat) (hf : 0 < fuel)
    (hk : k < c.numcorrelators) (hsl : k < c.shift.length) :
    (addFuel tc fuel c w k).shift.getD k [] =
      (c.shift.getD k []).set (c.insertindex.getD k 0) w := by
  obtain ⟨f, rfl⟩ : ∃ f, fuel = f + 1 := ⟨fuel - 1, by omega⟩
  rw [addFuel_succ, if_neg (by omega : ¬ (k = c.numcorrelators)),
    corrPhase_shift]
  split
  · rw [postCascade_shift,
      (addFuel_eqBelow tc f (preCascade c w k)
        ((c.accumulator.getD k 0 + w) / (c.m : ℚ)) (k + 1) k
        (Nat.lt_succ_self k)).1,
      preCascade_shift, getD_set_self _ _ _ _ hsl]
  · rw [preCascade_shift, getD_set_self _ _ _ _ hsl]

/-- The level-0 `add` that fills the group hands the exact average to
level 1: level 1's buffer receives `(accumulator[0]+w)/m` at its cursor. -/
theorem add0_cascade_shift1 (c : Correlator_Likh) (w : ℚ)
    (hN : 1 < c.numcorrelators) (hsl : 1 < c.shift.length)
    (hc : c.naccumulator.getD 0 0 + 1 = c.m) :
    (c.add w 0).shift.getD 1 [] =
      (c.shift.getD 1 []).set (c.insertindex.getD 1 0)
        ((c.accumulator.getD 0 0 + w) / (c.m : ℚ)) := by
  rw [add_def, addFuel_succ,
    if_neg (by omega : ¬ ((0 : Nat) = c.numcorrelators)), if_pos hc,
    corrPhase_shift, postCascade_shift]
  obtain ⟨f, hf⟩ : ∃ f, c.numcorrelators = f + 1 :=
    ⟨c.numcorrelators - 1, by omega⟩
  rw [hf, addFuel_shift_row sentinelTC (f + 1) (preCascade c w 0)
    ((c.accumulator.getD 0 0 + w) / (c.m : ℚ)) 1 (Nat.succ_pos f)
    (by rw [preCascade_numcorrelators]; omega)
    (by rw [preCascade_shift, List.length_set]; omega),
    preCascade_shift, preCascade_insertindex,
    getD_set_ne _ _ _ (by omega : (0 : Nat) ≠ 1)]

/-- **C4 counterexample**: the claim fails as stated.  With
`numcorrelators = 2` (allowed by the claim's `numcorrelators ≥ 2`) there
is no level 2: after `m² = 4` samples the cascade out of level 1 is
discarded by the depth guard and level 2 has received zero insertions,
not one.  And with `p = 1` (the claim puts no floor on `p`),
`insertindex[1]` wraps straight back to `0` after the first level-1
insertion, so it has not "advanced by 1". -/
theorem C4_cascade_timing_counterexample :
    ((initState 2 2 2).feed [1, 1, 1, 1]).nwritten.getD 2 0 = 0 ∧
    ((initState 2 1 1).feed [(5 : ℚ)]).insertindex.getD 1 0 = 0 := by
  constructor
  · have hW := feed_wfC [1, 1, 1, 1] (initState 2 2 2)
      (initState_wfC 2 2 2 (by omega))
    have hlen : ((initState 2 2 2).feed [1, 1, 1, 1]).nwritten.length =
        2 := by
      rw [hW.2.2.2.2.2.2.1, (feed_config [1, 1, 1, 1] (initState 2 2 2)).1]
      rfl
    exact getD_of_length_le 0 (le_of_eq hlen)
  · have hW0 := initState_wfC 2 1 1 (by omega)
    have h := feed_counts [(5 : ℚ)] 0 (initState 2 1 1) hW0
      (by show 0 < 1; omega) (initState_counts 2 1 1) 1
      (by show 1 < 2; omega)
    rw [h.2.2]
    decide

/-- **C4 (amended)**: for a fresh engine with `numcorrelators ≥ 2`,
`p ≥ 2` and `m ≥ 1`, after exactly `m` samples level 1 has received
exactly one insertion, its value being the exact average of the `m`
samples, with `naccumulator[0] = 0` and `insertindex[1]` advanced to 1;
and — when `numcorrelators ≥ 3`, so that level 2 exists — after `m²`
samples level 2 has received exactly one insertion. -/
theorem C4_first_cascades (N p m : Nat) (ws ws2 : List ℚ)
    (hN : 2 ≤ N) (hp : 2 ≤ p) (hm : 1 ≤ m)
    (hlen : ws.length = m) (hlen2 : ws2.length = m * m) :
    ((initState N p m).feed ws).nwritten.getD 1 0 = 1 ∧
    (((initState N p m).feed ws).shift.getD 1 []).getD 0 sentinel =
      ws.sum / (m : ℚ) ∧
    ((initState N p m).feed ws).naccumulator.getD 0 0 = 0 ∧
    ((initState N p m).feed ws).insertindex.getD 1 0 = 1 ∧
    (3 ≤ N → ((initState N p m).feed ws2).nwritten.getD 2 0 = 1) := by
  have hp0 : 0 < p := by omega
  have hm0 : 0 < m := by omega
  have hW0 := initState_wfC N p m hp0
  have hm0' : 0 < (initState N p m).m := hm0
  have hN1 : 1 < (initState N p m).numcorrelators := by show 1 < N; omega
  have hcnt := feed_counts ws 0 (initState N p m) hW0 hm0'
    (initState_counts N p m)
  have hcnt1 := hcnt 1 hN1
  rw [hlen] at hcnt1
  have hdm : (0 + m) / (initState N p m).m ^ 1 = 1 := by
    show (0 + m) / m ^ 1 = 1
    rw [Nat.zero_add, pow_one, Nat.div_self hm0]
  have hcnt0 := hcnt 0 (by show 0 < N; omega)
  rw [hlen] at hcnt0
  have hdm0 : (0 + m) / (initState N p m).m ^ 0 = m := by
    rw [pow_zero, Nat.div_one, Nat.zero_add]
  refine ⟨?_, ?_, ?_, ?_, ?_⟩
  · rw [hcnt1.1, hdm]
  · -- the inserted value: split off the last sample of the group
    rcases List.eq_nil_or_concat ws with hnil | ⟨l, b, hws⟩
    · rw [hnil] at hlen
      exact absurd hlen.symm (by
        rw [List.length_nil]
        omega)
    rw [List.concat_eq_append] at hws
    have hllen : l.length = m - 1 := by
      rw [hws, List.length_append, List.length_cons, List.length_nil]
        at hlen
      omega
    have hsum : ws.sum = l.sum + b := by
      rw [hws, List.sum_append, List.sum_cons, List.sum_nil, add_zero]
    have hW' := feed_wfC l (initState N p m) hW0
    have hcfg' := feed_config l (initState N p m)
    have hc0acc : (initState N p m).accumulator.getD 0 0 = 0 := by
      have h := initState_counts N p m 0 (by show 0 < N; omega)
      simp [initState, getD_replicate] at h ⊢
    have hc0nacc : (initState N p m).naccumulator.getD 0 0 = 0 := by
      simp [initState, getD_replicate]
    have hpart := feed_partial l (initState N p m) hW0
      (by show 0 < N; omega)
      (by rw [hc0nacc, hllen, Nat.zero_add]
          show m - 1 < m
          omega)
    have hacc' : ((initState N p m).feed l).accumulator.getD 0 0 =
        l.sum := by
      rw [hpart.1, hc0acc, zero_add]
    have hnacc' : ((initState N p m).feed l).naccumulator.getD 0 0 =
        m - 1 := by
      rw [hpart.2, hc0nacc, hllen, Nat.zero_add]
    have hcntl := feed_counts l 0 (initState N p m) hW0 hm0'
      (initState_counts N p m) 1 hN1
    have hind1 : ((initState N p m).feed l).insertindex.getD 1 0 = 0 := by
      rw [hcntl.2.2, hllen]
      show (0 + (m - 1)) / m ^ 1 % p = 0
      rw [Nat.zero_add, pow_one, Nat.div_eq_of_lt (by omega), Nat.zero_mod]
    have hmfeed : ((initState N p m).feed l).m = m := hcfg'.2.2.1
    have htest : ((initState N p m).feed l).naccumulator.getD 0 0 + 1 =
        ((initState N p m).feed l).m := by
      rw [hnacc', hmfeed]
      omega
    have hshl : 1 < ((initState N p m).feed l).shift.length := by
      rw [hW'.2.2.1, hcfg'.1]
      show 1 < N
      omega
    have hNfeed : 1 < ((initState N p m).feed l).numcorrelators := by
      rw [hcfg'.1]
      show 1 < N
      omega
    have hstep := add0_cascade_shift1 ((initState N p m).feed l) b hNfeed
      hshl htest
    have hrowlen : 0 < (((initState N p m).feed l).shift.getD 1 []).length
        := by
      rw [(hW'.2.2.2.2.2.2.2.2.2 1 (by rw [hcfg'.1]; show 1 < N; omega)).1,
        hcfg'.2.1]
      show 0 < p
      omega
    have hfeedsplit : (initState N p m).feed ws =
        (((initState N p m).feed l).add b 0) := by
      rw [hws, feed_append]
      rfl
    rw [hfeedsplit, hstep, hind1, getD_set_self _ _ _ _ hrowlen, hacc',
      hmfeed, hsum]
  · rw [hcnt0.2.1, hdm0]
    show m % m = 0
    rw [Nat.mod_self]
  · rw [hcnt1.2.2, hdm]
    show 1 % p = 1
    rw [Nat.mod_eq_of_lt (by omega)]
  · intro hN3
    have hcnt2 := feed_counts ws2 0 (initState N p m) hW0 hm0'
      (initState_counts N p m) 2 (by show 2 < N; omega)
    rw [hlen2] at hcnt2
    rw [hcnt2.1]
    show (0 + m * m) / m ^ 2 = 1
    rw [Nat.zero_add, pow_two, Nat.div_self (Nat.mul_pos hm0 hm0)]

theorem C4_first_cascades_witness :
    2 ≤ 2 ∧ 2 ≤ 2 ∧ 1 ≤ 1 ∧ [(2 : ℚ)].length = 1 ∧
    [(3 : ℚ)].length = 1 * 1 ∧
    (((initState 2 2 1).feed [(2 : ℚ)]).nwritten.getD 1 0 = 1 ∧
     ((((initState 2 2 1).feed [(2 : ℚ)]).shift.getD 1 []).getD 0
        sentinel) = [(2 : ℚ)].sum / ((1 : Nat) : ℚ) ∧
     ((initState 2 2 1).feed [(2 : ℚ)]).naccumulator.getD 0 0 = 0 ∧
     ((initState 2 2 1).feed [(2 : ℚ)]).insertindex.getD 1 0 = 1 ∧
     (3 ≤ 2 → ((initState 2 2 1).feed [(3 : ℚ)]).nwritten.getD 2 0 = 1)) :=
  ⟨by decide, by decide, by decide, by decide, by decide,
    C4_first_cascades 2 2 1 [(2 : ℚ)] [(3 : ℚ)] (by decide) (by decide)
      (by decide) (by decide) (by decide)⟩

end Correlator_Likh
